import Mathlib

set_option maxHeartbeats 1000000

/-!
Verification development for the bookverse-platform repository.

Embedded from `src/app/main.py`: the SemVer model (regex `SEMVER_RE`,
`SemVer.parse`, `compare_semver`, `sort_versions_by_semver_desc`),
`pick_latest_prod_version` and `build_manifest`.

The tag reconciliation engine (`enforce_latest_tag_invariants`,
`handle_rollback_tagging`, `pick_next_latest` of module `tagging_service`)
is not part of the repository sources; only its tests
(`src/tests/test_tagging_logic.py`) are.  Those operations are modelled
from the spec, as marked in their doc comments.
-/

namespace BookVerse

/-! ### Character classes of SEMVER_RE (src/app/main.py:28-32) -/

/-- ASCII decimal digit: the regex class `\d`, and Python `str.isdigit` on ASCII input. -/
def isDigitChar (c : Char) : Bool := '0' ≤ c && c ≤ '9'

/-- ASCII letter: the regex class `[a-zA-Z]`. -/
def isAlphaChar (c : Char) : Bool := ('a' ≤ c && c ≤ 'z') || ('A' ≤ c && c ≤ 'Z')

/-- The regex class `[0-9a-zA-Z-]` used for prerelease and build identifiers. -/
def isIdentChar (c : Char) : Bool := isDigitChar c || isAlphaChar c || c = '-'

/-- The regex class `\s`, modelled on its ASCII fragment. -/
def isWSChar (c : Char) : Bool :=
  c = ' ' || c = '\t' || c = '\n' || c = '\r' || c = '\x0b' || c = '\x0c'

/-- The regex number `0|[1-9]\d*`: nonempty, all digits, no leading zero unless it is `0` itself. -/
def numOK (l : List Char) : Bool :=
  !l.isEmpty && l.all isDigitChar && (l.head? ≠ some '0' || l.length = 1)

/-- Value of a digit string, as Python `int` computes it on a validated match group. -/
def digitsVal (l : List Char) : Nat := l.foldl (fun n c => 10 * n + (c.toNat - '0'.toNat)) 0

/-- One prerelease identifier: the regex alternative `0|[1-9]\d*|[a-zA-Z-][0-9a-zA-Z-]*`. -/
def preIdentOK (l : List Char) : Bool :=
  numOK l ||
    (match l with
     | c :: rest => (isAlphaChar c || c = '-') && rest.all isIdentChar
     | [] => false)

/-- One build identifier: the regex piece `[0-9a-zA-Z-]+`. -/
def buildIdentOK (l : List Char) : Bool := !l.isEmpty && l.all isIdentChar

/-- Characters that may occur inside a dot-separated identifier run. -/
def isPreRunChar (c : Char) : Bool := isIdentChar c || c = '.'

/-- Split a character run at every `'.'` (like Python `str.split`, never returns an empty list). -/
def splitDot : List Char → List (List Char)
  | [] => [[]]
  | c :: rest =>
    let r := splitDot rest
    if c = '.' then [] :: r
    else (c :: r.headD []) :: r.tail

/-! ### The SemVer model (src/app/main.py:35-50) -/

/-- Scan a `0|[1-9]\d*` number from the front of the input. -/
def parseNum (l : List Char) : Option (Nat × List Char) :=
  let d := l.takeWhile isDigitChar
  if numOK d then some (digitsVal d, l.dropWhile isDigitChar) else none

/-- Expect a literal `'.'`. -/
def dropDot : List Char → Option (List Char)
  | '.' :: r => some r
  | _ => none

/-- Scan an optional group `mark identifier(.identifier)*`; absent group yields `[]`. -/
def parseDotGroup (l : List Char) (mark : Char) (tokOK : List Char → Bool) :
    Option (List (List Char) × List Char) :=
  match l with
  | c :: r =>
    if c = mark then
      let toks := splitDot (r.takeWhile isPreRunChar)
      if toks.all tokOK then some (toks, r.dropWhile isPreRunChar) else none
    else some ([], l)
  | [] => some ([], [])

/-- The optional leading `v` of the regex. -/
def stripV : List Char → List Char
  | 'v' :: r => r
  | l => l

/-- Functional embedding of `SEMVER_RE.match` (src/app/main.py:28-32):
`^\s*v?NUM.NUM.NUM(-prerelease)?(+build)?\s*$`.  Returns the captured
(major, minor, patch, prerelease identifiers). -/
def matchSemver (l : List Char) : Option (Nat × Nat × Nat × List (List Char)) :=
  let l1 := stripV (l.dropWhile isWSChar)
  match parseNum l1 with
  | none => none
  | some (maj, r1) =>
    match dropDot r1 with
    | none => none
    | some r2 =>
      match parseNum r2 with
      | none => none
      | some (minv, r3) =>
        match dropDot r3 with
        | none => none
        | some r4 =>
          match parseNum r4 with
          | none => none
          | some (pat, r5) =>
            match parseDotGroup r5 '-' preIdentOK with
            | none => none
            | some (pre, r6) =>
              match parseDotGroup r6 '+' buildIdentOK with
              | none => none
              | some (_, r7) =>
                if r7.all isWSChar then some (maj, minv, pat, pre) else none

/-- The SemVer value class (src/app/main.py:35-41). -/
structure SemVer where
  major : Nat
  minor : Nat
  patch : Nat
  prerelease : List (List Char)
  original : String
deriving DecidableEq

/-- Embedding of `SemVer.parse` (src/app/main.py:43-50): regex match or `None`, never an error. -/
def SemVer.parse (version : String) : Option SemVer :=
  (matchSemver version.data).map (fun t => ⟨t.1, t.2.1, t.2.2.1, t.2.2.2, version⟩)

/-! ### compare_semver (src/app/main.py:53-82) -/

/-- Python string `<`: lexicographic comparison by code point. -/
def lexLt : List Char → List Char → Bool
  | [], [] => false
  | [], _ :: _ => true
  | _ :: _, [] => false
  | a :: as, b :: bs => if a = b then lexLt as bs else decide (a.toNat < b.toNat)

/-- Python `str.isdigit` on a token (ASCII): nonempty and all digits. -/
def pyIsDigitTok (l : List Char) : Bool := !l.isEmpty && l.all isDigitChar

/-- One iteration of the prerelease-identifier loop of compare_semver
(src/app/main.py:64-79); `0` means the loop continues. -/
def tokCmp (a b : List Char) : Int :=
  if a = b then 0
  else if pyIsDigitTok a && pyIsDigitTok b then
    (if digitsVal a = digitsVal b then 0
     else if digitsVal a < digitsVal b then -1 else 1)
  else if pyIsDigitTok a && !pyIsDigitTok b then -1
  else if !pyIsDigitTok a && pyIsDigitTok b then 1
  else if lexLt a b then -1 else 1

/-- The prerelease loop plus the final length comparison (src/app/main.py:64-82). -/
def cmpPre : List (List Char) → List (List Char) → Int
  | a :: as, b :: bs => if tokCmp a b = 0 then cmpPre as bs else tokCmp a b
  | as, bs =>
    if as.length = bs.length then 0
    else if as.length < bs.length then -1 else 1

/-- Embedding of `compare_semver` (src/app/main.py:53-82). -/
def compare_semver (a b : SemVer) : Int :=
  if a.major ≠ b.major then (if a.major < b.major then -1 else 1)
  else if a.minor ≠ b.minor then (if a.minor < b.minor then -1 else 1)
  else if a.patch ≠ b.patch then (if a.patch < b.patch then -1 else 1)
  else if a.prerelease.isEmpty && !b.prerelease.isEmpty then 1
  else if !a.prerelease.isEmpty && b.prerelease.isEmpty then -1
  else cmpPre a.prerelease b.prerelease

/-! ### sort_versions_by_semver_desc (src/app/main.py:85-93) -/

/-- Descending precedence on (SemVer, original string) pairs: `a` may precede `b`. -/
def semverDescRel (a b : SemVer × String) : Prop := 0 ≤ compare_semver a.1 b.1

instance : DecidableRel semverDescRel := fun _ _ => inferInstanceAs (Decidable (0 ≤ _))

/-- The (parsed, original string) pair list built by sort_versions_by_semver_desc;
unparseable strings are dropped. -/
def parsedPairs (version_strings : List String) : List (SemVer × String) :=
  version_strings.filterMap (fun v => (SemVer.parse v).map (fun sv => (sv, v)))

/-- Embedding of `sort_versions_by_semver_desc` (src/app/main.py:85-93).  Python's
`list.sort` with a comparator key and `reverse=True` is a stable descending sort,
modelled as a stable insertion sort on the (parsed, original) pairs. -/
def sort_versions_by_semver_desc (version_strings : List String) : List String :=
  (List.insertionSort semverDescRel (parsedPairs version_strings)).map (·.2)

/-! ### Registry version records -/

/-- One published version as returned by the Registry: the dict shape
`(version, tag, release_status, properties)` used throughout the engine
and by pick_latest_prod_version. -/
structure VersionRec where
  version : String
  tag : String
  release_status : String
  properties : List (String × List String)
deriving DecidableEq

/-! ### pick_latest_prod_version (src/app/main.py:248-256) -/

/-- Python `str.upper`, char by char. -/
def upperStr (s : String) : String := ⟨s.data.map Char.toUpper⟩

/-- release_status filter of pick_latest_prod_version: `.upper() in (RELEASED, TRUSTED)`. -/
def isProdStatus (v : VersionRec) : Bool :=
  upperStr v.release_status = "RELEASED" || upperStr v.release_status = "TRUSTED_RELEASE"

/-- Embedding of `pick_latest_prod_version` (src/app/main.py:248-256): the version
list is the client response; only `version` and `release_status` are read. -/
def pick_latest_prod_version (versions : List VersionRec) : Option String :=
  let prod := ((versions.filter isProdStatus).map (·.version)).filter (fun s => s ≠ "")
  if prod.isEmpty then none
  else (sort_versions_by_semver_desc prod).head?

/-! ### build_manifest (src/app/main.py:292-330) -/

/-- One configured application entry as produced by resolve_promoted_versions
(or simulated): the dict keys read by build_manifest. -/
structure AppEntry where
  apptrust_application : Option String
  resolved_version : Option String
  simulated_version : Option String
deriving DecidableEq

/-- `entry.get("resolved_version") or entry.get("simulated_version", "0.0.0-sim")`
with Python falsiness of absent/empty strings. -/
def appEntryVersion (e : AppEntry) : String :=
  let fallback := match e.simulated_version with
    | some s => s
    | none => "0.0.0-sim"
  match e.resolved_version with
  | some v => if v = "" then fallback else v
  | none => fallback

/-- One `applications` block entry of the manifest. -/
structure ManifestApp (J : Type) where
  application_key : String
  version : String
  sources : J
  releasables : J
deriving DecidableEq

/-- The `provenance.evidence_minimums` block. -/
structure Provenance where
  signatures_present : Bool
deriving DecidableEq

/-- A UTC timestamp as produced by `datetime.utcnow()`. -/
structure Timestamp where
  year : Nat
  month : Nat
  day : Nat
  hour : Nat
  minute : Nat
  second : Nat
  microsecond : Nat
deriving DecidableEq

/-- Zero-left-pad the decimal digits of `n` to width `w` (strftime padding). -/
def padNum (w n : Nat) : String :=
  ⟨List.replicate (w - (Nat.toDigits 10 n).length) '0' ++ Nat.toDigits 10 n⟩

/-- `now.strftime("%Y.%m.%d.%H%M%S")`: the CalVer manifest version. -/
def calverOf (t : Timestamp) : String :=
  padNum 4 t.year ++ "." ++ padNum 2 t.month ++ "." ++ padNum 2 t.day ++ "." ++
    padNum 2 t.hour ++ padNum 2 t.minute ++ padNum 2 t.second

/-- `now.isoformat().replace("+00:00", "Z")` for a UTC-aware datetime. -/
def isoOf (t : Timestamp) : String :=
  padNum 4 t.year ++ "-" ++ padNum 2 t.month ++ "-" ++ padNum 2 t.day ++ "T" ++
    padNum 2 t.hour ++ ":" ++ padNum 2 t.minute ++ ":" ++ padNum 2 t.second ++
    (if t.microsecond = 0 then "" else "." ++ padNum 6 t.microsecond) ++ "Z"

/-- The manifest document shape (src/app/main.py:319-329). -/
structure Manifest (J : Type) where
  version : String
  created_at : String
  source_stage : String
  applications : List (ManifestApp J)
  evidence_minimums : Provenance
  notes : String
deriving DecidableEq

/-- Embedding of `build_manifest` (src/app/main.py:292-330).  The AppTrust client
is abstracted to the function `get_version_content` returning the
(sources, releasables) pair of a version's content; `now` is the sampled clock.
Raised `ValueError`s are modelled as `Except.error`. -/
def build_manifest {J : Type} (applications : List AppEntry)
    (get_version_content : String → String → J × J) (source_stage : String)
    (now : Timestamp) : Except String (Manifest J) :=
  if source_stage ≠ "PROD" then
    .error "Platform aggregation demo only supports source_stage=PROD"
  else do
    let apps ← applications.mapM (fun entry => do
      let version := appEntryVersion entry
      match entry.apptrust_application with
      | none => Except.error "Application entry missing required fields"
      | some app_key =>
        if app_key = "" ∨ version = "" then
          Except.error "Application entry missing required fields"
        else
          let c := get_version_content app_key version
          Except.ok (⟨app_key, version, c.1, c.2⟩ : ManifestApp J))
    pure { version := calverOf now,
           created_at := isoOf now,
           source_stage := source_stage,
           applications := apps,
           evidence_minimums := ⟨true⟩,
           notes := "Auto-generated by platform-aggregator (applications & versions)" }

/-! ### The tag reconciliation engine

Modelled from the spec: the module `tagging_service` (operations
`enforce_latest_tag_invariants`, `handle_rollback_tagging`,
`pick_next_latest`, constants `LATEST_TAG`, `BACKUP_BEFORE_LATEST`,
`BACKUP_BEFORE_QUARANTINE`) is imported by `src/tests/test_tagging_logic.py`
but its source is not in the repository.  The definitions below follow
spec sections 3, 4.3 and 6 and the call shapes asserted by the tests. -/

def LATEST_TAG : String := "latest"

def BACKUP_BEFORE_LATEST : String := "BACKUP_BEFORE_LATEST"

def BACKUP_BEFORE_QUARANTINE : String := "BACKUP_BEFORE_QUARANTINE"

/-- Quarantine detection is a prefix match on `quarantine-` (spec 4.3 edge-case policies). -/
def isQuarantineTag (t : String) : Bool := List.isPrefixOf "quarantine-".data t.data

/-- A version is production-eligible when its release_status is RELEASED or
TRUSTED_RELEASE (spec section 3). -/
def isEligible (v : VersionRec) : Bool :=
  v.release_status = "RELEASED" || v.release_status = "TRUSTED_RELEASE"

/-- Modelled from the spec: the engine's filter to production-eligible versions. -/
def prodVersions (vs : List VersionRec) : List VersionRec := vs.filter isEligible

/-- Production-eligible versions that are not quarantined: the `latest`-candidate set. -/
def candidates (vs : List VersionRec) : List VersionRec :=
  (prodVersions vs).filter (fun v => !isQuarantineTag v.tag)

/-- The versions currently holding the `latest` tag among the production-eligible ones. -/
def holders (vs : List VersionRec) : List VersionRec :=
  (prodVersions vs).filter (fun v => v.tag = LATEST_TAG)

/-- SemVer comparison lifted to version strings (0 when either side is unparseable;
the engine theorems assume parseable versions). -/
def cmpStr (a b : String) : Int :=
  match SemVer.parse a, SemVer.parse b with
  | some x, some y => compare_semver x y
  | _, _ => 0

/-- One step of the highest-SemVer selection: keep the running best unless
strictly exceeded. -/
def maxStep (acc : Option VersionRec) (v : VersionRec) : Option VersionRec :=
  match acc with
  | none => some v
  | some b => if 0 < cmpStr v.version b.version then some v else some b

/-- First maximal element by SemVer order of the version strings
(ties keep the earliest listed record). -/
def maxByVersion (l : List VersionRec) : Option VersionRec :=
  l.foldl maxStep none

/-- A patch_application_version call: the mutation shape asserted by the tests. -/
structure PatchCall where
  version : String
  tag : Option String
  set_properties : List (String × List String)
  delete_properties : List String
deriving DecidableEq

/-- Look up a property key. -/
def lookupProp (ps : List (String × List String)) (k : String) : Option (List String) :=
  (ps.find? (fun p => p.1 = k)).map (·.2)

/-- Modelled from the spec (4.3 step 4b, edge-case policies): the tag restored onto a
former `latest` holder: the backup from `BACKUP_BEFORE_LATEST` when present, else
the literal default `version`. -/
def restoreTagOf (v : VersionRec) : String :=
  match lookupProp v.properties BACKUP_BEFORE_LATEST with
  | some (t :: _) => t
  | _ => "version"

/-- The promotion patch: set tag to `latest`, back up the old tag (spec 4.3 step 4a). -/
def promotePatch (v : VersionRec) : PatchCall :=
  { version := v.version, tag := some LATEST_TAG,
    set_properties := [(BACKUP_BEFORE_LATEST, [v.tag])], delete_properties := [] }

/-- The restore patch: put back the backed-up tag, delete the backup (spec 4.3 step 4b). -/
def restorePatch (v : VersionRec) : PatchCall :=
  { version := v.version, tag := some (restoreTagOf v),
    set_properties := [], delete_properties := [BACKUP_BEFORE_LATEST] }

/-- Modelled from the spec (4.3): `pick_next_latest(prod_versions, excluded_version)`:
highest-SemVer version among `prod_versions` that is neither the excluded version
nor quarantined; pure, no mutations. -/
def pick_next_latest (prod_versions : List VersionRec) (excluded_version : String) :
    Option VersionRec :=
  maxByVersion (prod_versions.filter
    (fun v => v.version ≠ excluded_version && !isQuarantineTag v.tag))

/-- The `latest` holders other than the desired version. -/
def otherHolders (vs : List VersionRec) (d : VersionRec) : List VersionRec :=
  (holders vs).filter (fun h => h.version ≠ d.version)

/-- The mutations of a non-trivial reconciliation: promote the desired version
(unless already tagged `latest`), then restore every other holder. -/
def enforcePlan (vs : List VersionRec) (d : VersionRec) : List PatchCall :=
  (if d.tag = LATEST_TAG then [] else [promotePatch d]) ++
    (otherHolders vs d).map restorePatch

/-- Modelled from the spec (4.3): the sequence of patch calls issued by
`enforce_latest_tag_invariants`: nothing when there is no candidate or the
desired version is already the sole holder; otherwise the promotion patch
(when needed) followed by a restore patch for every other holder. -/
def enforce_latest_tag_invariants (vs : List VersionRec) : List PatchCall :=
  match maxByVersion (candidates vs) with
  | none => []
  | some d =>
    if holders vs = [d] then []
    else enforcePlan vs d

/-- Modelled from the spec (4.3): the patch calls issued by
`handle_rollback_tagging(app, rolled_back_version)`: the quarantine patch first,
then, only when the rolled-back version held `latest`, the promotion of the
`pick_next_latest` candidate if one exists. -/
def handle_rollback_tagging (vs : List VersionRec) (rolled_back_version : String) :
    List PatchCall :=
  match (prodVersions vs).find? (fun v => v.version = rolled_back_version) with
  | none => []
  | some r =>
    { version := r.version, tag := some ("quarantine-" ++ rolled_back_version),
      set_properties := [(BACKUP_BEFORE_QUARANTINE, [r.tag])], delete_properties := [] } ::
    (if r.tag = LATEST_TAG then
       match pick_next_latest (prodVersions vs) rolled_back_version with
       | some c => [promotePatch c]
       | none => []
     else [])

/-- Property-map update of one patch: delete the listed keys, then merge the set keys. -/
def patchProps (props : List (String × List String)) (p : PatchCall) :
    List (String × List String) :=
  (props.filter (fun q => !p.delete_properties.contains q.1)).filter
      (fun q => !(p.set_properties.map (·.1)).contains q.1) ++
    p.set_properties

/-- Effect of one patch call on one version record (a no-op on other versions). -/
def patchRec (p : PatchCall) (v : VersionRec) : VersionRec :=
  if v.version = p.version then
    { v with tag := p.tag.getD v.tag, properties := patchProps v.properties p }
  else v

/-- Effect of one patch call on the Registry's version list. -/
def applyPatch (vs : List VersionRec) (p : PatchCall) : List VersionRec :=
  vs.map (patchRec p)

def applyPatches (vs : List VersionRec) (pcs : List PatchCall) : List VersionRec :=
  pcs.foldl applyPatch vs

/-- The Registry state after a completed run of enforce_latest_tag_invariants. -/
def enforceState (vs : List VersionRec) : List VersionRec :=
  applyPatches vs (enforce_latest_tag_invariants vs)

/-- The Registry state after a completed run of handle_rollback_tagging. -/
def rollbackState (vs : List VersionRec) (rb : String) : List VersionRec :=
  applyPatches vs (handle_rollback_tagging vs rb)

/-! ### Comparator laws

`compare_semver` is shown to be the lexicographic comparison of key lists,
from which reflexivity, antisymmetry and transitivity follow. -/

/-- Comparison key of one prerelease identifier: numeric identifiers map to their
value, others to themselves; numeric sorts below alphanumeric. -/
def tokKey (t : List Char) : Sum Nat (List Char) :=
  if pyIsDigitTok t then .inl (digitsVal t) else .inr t

/-- Three-way comparison of identifier keys. -/
def keyCmp : Sum Nat (List Char) → Sum Nat (List Char) → Int
  | .inl m, .inl n => if m = n then 0 else if m < n then -1 else 1
  | .inl _, .inr _ => -1
  | .inr _, .inl _ => 1
  | .inr s, .inr t => if s = t then 0 else if lexLt s t then -1 else 1

/-- Lexicographic three-way comparison of key lists, shorter list first on ties. -/
def keyListCmp : List (Sum Nat (List Char)) → List (Sum Nat (List Char)) → Int
  | a :: as, b :: bs => if keyCmp a b = 0 then keyListCmp as bs else keyCmp a b
  | as, bs =>
    if as.length = bs.length then 0
    else if as.length < bs.length then -1 else 1

/-- Full comparison key of a SemVer value: numeric components, then a rank bit
(no prerelease ranks above any prerelease), then the prerelease identifier keys. -/
def svKeyList (a : SemVer) : List (Sum Nat (List Char)) :=
  .inl a.major :: .inl a.minor :: .inl a.patch ::
    (if a.prerelease.isEmpty then [.inl 1] else .inl 0 :: a.prerelease.map tokKey)

theorem charToNat_inj {c d : Char} (h : c.toNat = d.toNat) : c = d :=
  Char.ext (UInt32.ext h)

theorem lexLt_irrefl (a : List Char) : lexLt a a = false := by
  induction a with
  | nil => rfl
  | cons c cs ih => simp [lexLt, ih]

theorem lexLt_asymm : ∀ {a b : List Char}, lexLt a b = true → lexLt b a = false
  | [], [], h => by simp [lexLt] at h
  | [], _ :: _, _ => rfl
  | _ :: _, [], h => by simp [lexLt] at h
  | x :: xs, y :: ys, h => by
    by_cases hxy : x = y
    · subst hxy
      simp only [lexLt, if_pos rfl] at h ⊢
      exact lexLt_asymm h
    · have hyx : y ≠ x := fun hh => hxy hh.symm
      simp only [lexLt, if_neg hxy, decide_eq_true_eq] at h
      simp only [lexLt, if_neg hyx, decide_eq_false_iff_not]
      omega

theorem lexLt_total : ∀ {a b : List Char}, a ≠ b → lexLt a b = true ∨ lexLt b a = true
  | [], [], h => absurd rfl h
  | [], _ :: _, _ => Or.inl rfl
  | _ :: _, [], _ => Or.inr rfl
  | x :: xs, y :: ys, h => by
    by_cases hxy : x = y
    · subst hxy
      have : xs ≠ ys := fun hh => h (by rw [hh])
      simpa [lexLt] using lexLt_total this
    · have hyx : y ≠ x := fun hh => hxy hh.symm
      have : x.toNat ≠ y.toNat := fun hh => hxy (charToNat_inj hh)
      simp only [lexLt, if_neg hxy, if_neg hyx, decide_eq_true_eq]
      omega

theorem lexLt_trans : ∀ {a b c : List Char},
    lexLt a b = true → lexLt b c = true → lexLt a c = true
  | [], [], _, hab, _ => by simp [lexLt] at hab
  | [], _ :: _, [], _, hbc => by simp [lexLt] at hbc
  | [], _ :: _, _ :: _, _, _ => rfl
  | _ :: _, [], _, hab, _ => by simp [lexLt] at hab
  | _ :: _, _ :: _, [], _, hbc => by simp [lexLt] at hbc
  | x :: xs, y :: ys, z :: zs, hab, hbc => by
    by_cases hxy : x = y
    · subst hxy
      by_cases hyz : x = z
      · subst hyz
        simp only [lexLt, if_pos rfl] at hab hbc ⊢
        exact lexLt_trans hab hbc
      · simp only [lexLt, if_pos rfl] at hab
        simpa [lexLt, hyz] using hbc
    · by_cases hyz : y = z
      · subst hyz
        simpa [lexLt, hxy] using hab
      · have hxz : x.toNat < z.toNat := by
          simp only [lexLt, if_neg hxy, decide_eq_true_eq] at hab
          simp only [lexLt, if_neg hyz, decide_eq_true_eq] at hbc
          omega
        have hne : x ≠ z := fun hh => by subst hh; omega
        simp only [lexLt, if_neg hne, decide_eq_true_eq]
        exact hxz

theorem keyCmp_refl (x : Sum Nat (List Char)) : keyCmp x x = 0 := by
  cases x <;> simp [keyCmp]

theorem keyCmp_range (x y : Sum Nat (List Char)) :
    keyCmp x y = -1 ∨ keyCmp x y = 0 ∨ keyCmp x y = 1 := by
  cases x <;> cases y <;> simp only [keyCmp] <;> try (split_ifs <;> simp)
  · simp
  · simp

theorem keyCmp_zero_iff {x y : Sum Nat (List Char)} : keyCmp x y = 0 ↔ x = y := by
  cases x <;> cases y <;> simp only [keyCmp] <;> try (split_ifs <;> simp_all)
  · simp
  · simp

theorem keyCmp_antisym (x y : Sum Nat (List Char)) : keyCmp x y = -keyCmp y x := by
  cases x with
  | inl m =>
    cases y with
    | inl n => simp only [keyCmp]; split_ifs <;> omega
    | inr t => simp [keyCmp]
  | inr s =>
    cases y with
    | inl n => simp [keyCmp]
    | inr t =>
      by_cases hst : s = t
      · subst hst; simp [keyCmp]
      · have hts : t ≠ s := fun hh => hst hh.symm
        rcases lexLt_total hst with h | h
        · simp [keyCmp, hst, hts, h, lexLt_asymm h]
        · simp [keyCmp, hst, hts, h, lexLt_asymm h]

theorem keyCmp_trans_pos : ∀ {x y z : Sum Nat (List Char)},
    keyCmp x y = 1 → keyCmp y z = 1 → keyCmp x z = 1 := by
  intro x y z hxy hyz
  cases x with
  | inl m =>
    cases y with
    | inr t => simp [keyCmp] at hxy
    | inl n =>
      simp only [keyCmp] at hxy
      cases z with
      | inr u => simp [keyCmp] at hyz
      | inl k =>
        simp only [keyCmp] at hyz ⊢
        split_ifs at hxy hyz ⊢ <;> omega
  | inr s =>
    cases y with
    | inl n =>
      cases z with
      | inl k => simp [keyCmp]
      | inr u => simp [keyCmp] at hyz
    | inr t =>
      cases z with
      | inl k => simp [keyCmp]
      | inr u =>
        simp only [keyCmp] at hxy hyz ⊢
        have hst : s ≠ t := by intro hh; simp [hh] at hxy
        have hltst : ¬ lexLt s t = true := by
          intro hh; simp [hst, hh] at hxy
        have htu : t ≠ u := by intro hh; simp [hh] at hyz
        have hlttu : ¬ lexLt t u = true := by
          intro hh; simp [htu, hh] at hyz
        rcases lexLt_total hst with hts | hts
        · exact absurd hts hltst
        · rcases lexLt_total htu with hut | hut
          · exact absurd hut hlttu
          · have hus : lexLt u s = true := lexLt_trans hut hts
            have hsu : s ≠ u := by
              intro hh; subst hh
              have := lexLt_asymm hus
              rw [this] at hus; exact absurd hus (by simp)
            have : lexLt s u = false := lexLt_asymm hus
            simp [hsu, this]

theorem keyListCmp_refl (l : List (Sum Nat (List Char))) : keyListCmp l l = 0 := by
  induction l with
  | nil => rfl
  | cons x xs ih => simp [keyListCmp, keyCmp_refl, ih]

theorem keyListCmp_range : ∀ (l m : List (Sum Nat (List Char))),
    keyListCmp l m = -1 ∨ keyListCmp l m = 0 ∨ keyListCmp l m = 1
  | [], [] => by simp [keyListCmp]
  | [], _ :: _ => by simp [keyListCmp]
  | _ :: _, [] => by simp [keyListCmp]
  | x :: xs, y :: ys => by
    by_cases h : keyCmp x y = 0
    · simpa [keyListCmp, h] using keyListCmp_range xs ys
    · simpa [keyListCmp, h] using keyCmp_range x y

theorem keyListCmp_zero_iff : ∀ {l m : List (Sum Nat (List Char))},
    keyListCmp l m = 0 ↔ l = m
  | [], [] => by simp [keyListCmp]
  | [], y :: ys => by simp [keyListCmp]
  | x :: xs, [] => by simp [keyListCmp]
  | x :: xs, y :: ys => by
    by_cases h : keyCmp x y = 0
    · have hxy : x = y := keyCmp_zero_iff.mp h
      subst hxy
      simp [keyListCmp, h, keyListCmp_zero_iff]
    · have hxy : x ≠ y := fun hh => h (by rw [hh]; exact keyCmp_refl y)
      simp [keyListCmp, h, hxy]

theorem keyListCmp_antisym : ∀ (l m : List (Sum Nat (List Char))),
    keyListCmp l m = -keyListCmp m l
  | [], [] => by simp [keyListCmp]
  | [], y :: ys => by simp [keyListCmp]
  | x :: xs, [] => by simp [keyListCmp]
  | x :: xs, y :: ys => by
    by_cases h : keyCmp x y = 0
    · have h' : keyCmp y x = 0 := by rw [keyCmp_antisym y x, h]; rfl
      simp [keyListCmp, h, h', keyListCmp_antisym xs ys]
    · have h' : keyCmp y x ≠ 0 := fun hh => h (by rw [keyCmp_antisym x y, hh]; rfl)
      simp [keyListCmp, h, h', keyCmp_antisym x y]

theorem keyListCmp_trans_pos : ∀ {l m n : List (Sum Nat (List Char))},
    keyListCmp l m = 1 → keyListCmp m n = 1 → keyListCmp l n = 1
  | _, [], n, hlm, hmn => by
    cases n with
    | nil => simp [keyListCmp] at hmn
    | cons z zs => simp [keyListCmp] at hmn
  | [], m :: ms, n, hlm, hmn => by simp [keyListCmp] at hlm
  | x :: xs, y :: ys, n, hlm, hmn => by
    cases n with
    | nil => simp [keyListCmp]
    | cons z zs =>
      by_cases hxy : keyCmp x y = 0
      · have hx : x = y := keyCmp_zero_iff.mp hxy
        subst hx
        simp only [keyListCmp, if_pos hxy] at hlm
        by_cases hyz : keyCmp x z = 0
        · simp only [keyListCmp, if_pos hyz] at hmn ⊢
          exact keyListCmp_trans_pos hlm hmn
        · simpa [keyListCmp, hyz] using hmn
      · simp only [keyListCmp, if_neg hxy] at hlm
        by_cases hyz : keyCmp y z = 0
        · have hy : y = z := keyCmp_zero_iff.mp hyz
          subst hy
          simp [keyListCmp, hxy, hlm]
        · simp only [keyListCmp, if_neg hyz] at hmn
          have := keyCmp_trans_pos hlm hmn
          simp [keyListCmp, this]

theorem tokCmp_eq_keyCmp (a b : List Char) : tokCmp a b = keyCmp (tokKey a) (tokKey b) := by
  by_cases hab : a = b
  · subst hab; simp [tokCmp, keyCmp_refl]
  · by_cases ha : pyIsDigitTok a = true <;> by_cases hb : pyIsDigitTok b = true
    · simp [tokCmp, tokKey, keyCmp, hab, ha, hb]
    · simp [tokCmp, tokKey, keyCmp, hab, ha, hb]
    · simp [tokCmp, tokKey, keyCmp, hab, ha, hb]
    · simp [tokCmp, tokKey, keyCmp, hab, ha, hb]

theorem cmpPre_eq_klc : ∀ (p q : List (List Char)),
    cmpPre p q = keyListCmp (p.map tokKey) (q.map tokKey)
  | [], [] => by simp [cmpPre, keyListCmp]
  | [], _ :: _ => by simp [cmpPre, keyListCmp]
  | _ :: _, [] => by simp [cmpPre, keyListCmp]
  | t :: ts, u :: us => by
    simp only [List.map, cmpPre, keyListCmp, tokCmp_eq_keyCmp]
    by_cases h : keyCmp (tokKey t) (tokKey u) = 0
    · simp [h, cmpPre_eq_klc ts us]
    · simp [h]

theorem keyListCmp_cons_cons (x y : Sum Nat (List Char)) (xs ys : List (Sum Nat (List Char))) :
    keyListCmp (x :: xs) (y :: ys) =
      if keyCmp x y = 0 then keyListCmp xs ys else keyCmp x y := rfl

theorem compare_semver_eq_klc (a b : SemVer) :
    compare_semver a b = keyListCmp (svKeyList a) (svKeyList b) := by
  have knat : ∀ m n : Nat, keyCmp (Sum.inl m) (Sum.inl n) =
      if m = n then (0 : Int) else if m < n then -1 else 1 := fun _ _ => rfl
  have e : keyListCmp (svKeyList a) (svKeyList b) =
      if keyCmp (.inl a.major) (.inl b.major) = 0 then
        (if keyCmp (.inl a.minor) (.inl b.minor) = 0 then
          (if keyCmp (.inl a.patch) (.inl b.patch) = 0 then
            keyListCmp
              (if a.prerelease.isEmpty then [.inl 1] else .inl 0 :: a.prerelease.map tokKey)
              (if b.prerelease.isEmpty then [.inl 1] else .inl 0 :: b.prerelease.map tokKey)
          else keyCmp (.inl a.patch) (.inl b.patch))
        else keyCmp (.inl a.minor) (.inl b.minor))
      else keyCmp (.inl a.major) (.inl b.major) := rfl
  rw [e]
  unfold compare_semver
  by_cases h1 : a.major = b.major
  · by_cases h2 : a.minor = b.minor
    · by_cases h3 : a.patch = b.patch
      · simp only [knat, h1, h2, h3, ne_eq, not_true_eq_false, if_false, if_pos rfl]
        cases hpa : a.prerelease with
        | nil =>
          cases hpb : b.prerelease with
          | nil => simp [cmpPre, keyListCmp_cons_cons, keyListCmp, knat]
          | cons u us => simp [cmpPre, keyListCmp_cons_cons, knat]
        | cons t ts =>
          cases hpb : b.prerelease with
          | nil => simp [cmpPre, keyListCmp_cons_cons, knat]
          | cons u us =>
            have k0 : keyCmp (Sum.inl 0) (Sum.inl 0) = 0 := rfl
            simp only [List.isEmpty_cons, Bool.false_and, Bool.and_false,
              Bool.false_eq_true, if_false, keyListCmp_cons_cons, k0, if_pos rfl,
              Bool.not_false, Bool.true_and, Bool.and_true]
            rw [← hpa, ← hpb]
            exact cmpPre_eq_klc a.prerelease b.prerelease
      · simp only [knat, h1, h2, h3, ne_eq, not_true_eq_false, if_false, if_pos rfl]
        by_cases hlt : a.patch < b.patch <;> simp [hlt]
    · simp only [knat, h1, h2, ne_eq, not_true_eq_false, if_false, if_pos rfl]
      by_cases hlt : a.minor < b.minor <;> simp [hlt]
  · simp only [knat, ne_eq, h1]
    by_cases hlt : a.major < b.major <;> simp [hlt]

theorem cs_refl (a : SemVer) : compare_semver a a = 0 := by
  rw [compare_semver_eq_klc]; exact keyListCmp_refl _

theorem cs_range (a b : SemVer) :
    compare_semver a b = -1 ∨ compare_semver a b = 0 ∨ compare_semver a b = 1 := by
  rw [compare_semver_eq_klc]; exact keyListCmp_range _ _

theorem cs_antisym (a b : SemVer) : compare_semver a b = -compare_semver b a := by
  rw [compare_semver_eq_klc, compare_semver_eq_klc]; exact keyListCmp_antisym _ _

theorem cs_key_eq {a b : SemVer} (h : compare_semver a b = 0) : svKeyList a = svKeyList b := by
  rw [compare_semver_eq_klc] at h; exact keyListCmp_zero_iff.mp h

theorem cs_substL {a b : SemVer} (h : compare_semver a b = 0) (c : SemVer) :
    compare_semver a c = compare_semver b c := by
  rw [compare_semver_eq_klc, compare_semver_eq_klc, cs_key_eq h]

theorem cs_substR {b c : SemVer} (h : compare_semver b c = 0) (a : SemVer) :
    compare_semver a b = compare_semver a c := by
  rw [compare_semver_eq_klc, compare_semver_eq_klc, cs_key_eq h]

theorem cs_trans_pos {a b c : SemVer} (h1 : compare_semver a b = 1)
    (h2 : compare_semver b c = 1) : compare_semver a c = 1 := by
  rw [compare_semver_eq_klc] at h1 h2 ⊢
  exact keyListCmp_trans_pos h1 h2

theorem cs_ge_trans {a b c : SemVer} (h1 : 0 ≤ compare_semver a b)
    (h2 : 0 ≤ compare_semver b c) : 0 ≤ compare_semver a c := by
  rcases cs_range a b with hab | hab | hab
  · omega
  · rw [cs_substL hab c]; exact h2
  · rcases cs_range b c with hbc | hbc | hbc
    · omega
    · rw [← cs_substR hbc a, hab]; omega
    · rw [cs_trans_pos hab hbc]; omega

theorem cs_gt_of_gt_ge {a b c : SemVer} (h1 : 0 < compare_semver a b)
    (h2 : 0 ≤ compare_semver b c) : 0 < compare_semver a c := by
  have hab : compare_semver a b = 1 := by rcases cs_range a b with h | h | h <;> omega
  rcases cs_range b c with hbc | hbc | hbc
  · omega
  · rw [← cs_substR hbc a, hab]; omega
  · rw [cs_trans_pos hab hbc]; omega

theorem cs_gt_of_ge_gt {a b c : SemVer} (h1 : 0 ≤ compare_semver a b)
    (h2 : 0 < compare_semver b c) : 0 < compare_semver a c := by
  have hbc : compare_semver b c = 1 := by rcases cs_range b c with h | h | h <;> omega
  rcases cs_range a b with hab | hab | hab
  · omega
  · rw [cs_substL hab c, hbc]; omega
  · rw [cs_trans_pos hab hbc]; omega

/-! ### cmpStr laws for parseable version strings -/

theorem cmpStr_eq {a b : String} {x y : SemVer} (hx : SemVer.parse a = some x)
    (hy : SemVer.parse b = some y) : cmpStr a b = compare_semver x y := by
  simp [cmpStr, hx, hy]

theorem cmpStr_refl {a : String} (ha : (SemVer.parse a).isSome = true) : cmpStr a a = 0 := by
  obtain ⟨x, hx⟩ := Option.isSome_iff_exists.mp ha
  rw [cmpStr_eq hx hx]; exact cs_refl x

theorem cmpStr_antisym {a b : String} (ha : (SemVer.parse a).isSome = true)
    (hb : (SemVer.parse b).isSome = true) : cmpStr a b = -cmpStr b a := by
  obtain ⟨x, hx⟩ := Option.isSome_iff_exists.mp ha
  obtain ⟨y, hy⟩ := Option.isSome_iff_exists.mp hb
  rw [cmpStr_eq hx hy, cmpStr_eq hy hx]; exact cs_antisym x y

theorem cmpStr_ge_trans {a b c : String} (ha : (SemVer.parse a).isSome = true)
    (hb : (SemVer.parse b).isSome = true) (hc : (SemVer.parse c).isSome = true)
    (h1 : 0 ≤ cmpStr a b) (h2 : 0 ≤ cmpStr b c) : 0 ≤ cmpStr a c := by
  obtain ⟨x, hx⟩ := Option.isSome_iff_exists.mp ha
  obtain ⟨y, hy⟩ := Option.isSome_iff_exists.mp hb
  obtain ⟨z, hz⟩ := Option.isSome_iff_exists.mp hc
  rw [cmpStr_eq hx hy] at h1; rw [cmpStr_eq hy hz] at h2; rw [cmpStr_eq hx hz]
  exact cs_ge_trans h1 h2

theorem cmpStr_gt_of_gt_ge {a b c : String} (ha : (SemVer.parse a).isSome = true)
    (hb : (SemVer.parse b).isSome = true) (hc : (SemVer.parse c).isSome = true)
    (h1 : 0 < cmpStr a b) (h2 : 0 ≤ cmpStr b c) : 0 < cmpStr a c := by
  obtain ⟨x, hx⟩ := Option.isSome_iff_exists.mp ha
  obtain ⟨y, hy⟩ := Option.isSome_iff_exists.mp hb
  obtain ⟨z, hz⟩ := Option.isSome_iff_exists.mp hc
  rw [cmpStr_eq hx hy] at h1; rw [cmpStr_eq hy hz] at h2; rw [cmpStr_eq hx hz]
  exact cs_gt_of_gt_ge h1 h2

theorem cmpStr_gt_of_ge_gt {a b c : String} (ha : (SemVer.parse a).isSome = true)
    (hb : (SemVer.parse b).isSome = true) (hc : (SemVer.parse c).isSome = true)
    (h1 : 0 ≤ cmpStr a b) (h2 : 0 < cmpStr b c) : 0 < cmpStr a c := by
  obtain ⟨x, hx⟩ := Option.isSome_iff_exists.mp ha
  obtain ⟨y, hy⟩ := Option.isSome_iff_exists.mp hb
  obtain ⟨z, hz⟩ := Option.isSome_iff_exists.mp hc
  rw [cmpStr_eq hx hy] at h1; rw [cmpStr_eq hy hz] at h2; rw [cmpStr_eq hx hz]
  exact cs_gt_of_ge_gt h1 h2

theorem cmpStr_nonneg_of_not_pos {a b : String} (ha : (SemVer.parse a).isSome = true)
    (hb : (SemVer.parse b).isSome = true) (h : ¬ 0 < cmpStr b a) : 0 ≤ cmpStr a b := by
  obtain ⟨x, hx⟩ := Option.isSome_iff_exists.mp ha
  obtain ⟨y, hy⟩ := Option.isSome_iff_exists.mp hb
  rw [cmpStr_eq hy hx] at h; rw [cmpStr_eq hx hy]
  have := cs_antisym x y
  rcases cs_range y x with h' | h' | h' <;> omega

/-! ### Spec-side SemVer precedence (for the refinement claim on compare_semver)

Written from the spec's words: major, then minor, then patch numerically; no
prerelease beats a prerelease; prerelease identifiers left to right with
numeric < alphanumeric, numerics numeric, alphanumerics ASCII-lexical;
a proper prefix is lesser. -/

def ordToInt : Ordering → Int
  | .lt => -1
  | .eq => 0
  | .gt => 1

/-- Spec-side comparison of two prerelease identifiers. -/
def specTokenCompare (s t : List Char) : Ordering :=
  if pyIsDigitTok s then
    (if pyIsDigitTok t then compare (digitsVal s) (digitsVal t) else .lt)
  else
    (if pyIsDigitTok t then .gt
     else if s = t then .eq else if lexLt s t then .lt else .gt)

/-- Spec-side comparison of prerelease identifier lists, left to right,
proper prefix lesser. -/
def specPreCompare : List (List Char) → List (List Char) → Ordering
  | [], [] => .eq
  | [], _ :: _ => .lt
  | _ :: _, [] => .gt
  | s :: ss, t :: ts =>
    match specTokenCompare s t with
    | .eq => specPreCompare ss ts
    | o => o

/-- Spec-side SemVer 2.0.0 precedence as a three-way comparison. -/
def specSemVerCompare (a b : SemVer) : Int :=
  ordToInt <|
    (compare a.major b.major).then <|
      (compare a.minor b.minor).then <|
        (compare a.patch b.patch).then <|
          match a.prerelease, b.prerelease with
          | [], [] => .eq
          | [], _ :: _ => .gt
          | _ :: _, [] => .lt
          | p, q => specPreCompare p q

theorem ordToInt_natCompare (m n : Nat) :
    ordToInt (compare m n) = if m = n then 0 else if m < n then -1 else 1 := by
  rcases Nat.lt_trichotomy m n with h | h | h
  · rw [Nat.compare_eq_lt.mpr h]
    simp [ordToInt]; omega
  · subst h; rw [Nat.compare_eq_eq.mpr rfl]; simp [ordToInt]
  · rw [Nat.compare_eq_gt.mpr h]
    have h1 : m ≠ n := by omega
    have h2 : ¬ m < n := by omega
    simp [ordToInt, h1, h2]

theorem tokCmp_eq_spec (s t : List Char) : tokCmp s t = ordToInt (specTokenCompare s t) := by
  by_cases hst : s = t
  · subst hst
    by_cases hd : pyIsDigitTok s = true
    · simp [tokCmp, specTokenCompare, hd, ordToInt_natCompare]
    · simp [tokCmp, specTokenCompare, hd, ordToInt]
  · by_cases hs : pyIsDigitTok s = true <;> by_cases ht : pyIsDigitTok t = true
    · simp [tokCmp, specTokenCompare, hst, hs, ht, ordToInt_natCompare]
    · simp [tokCmp, specTokenCompare, hst, hs, ht, ordToInt]
    · simp [tokCmp, specTokenCompare, hst, hs, ht, ordToInt]
    · by_cases hl : lexLt s t = true <;>
        simp [tokCmp, specTokenCompare, hst, hs, ht, hl, ordToInt]

theorem cmpPre_eq_spec : ∀ p q, cmpPre p q = ordToInt (specPreCompare p q)
  | [], [] => by simp [cmpPre, specPreCompare, ordToInt]
  | [], _ :: _ => by simp [cmpPre, specPreCompare, ordToInt]
  | _ :: _, [] => by simp [cmpPre, specPreCompare, ordToInt]
  | s :: ss, t :: ts => by
    have h := tokCmp_eq_spec s t
    by_cases he : specTokenCompare s t = .eq
    · have h0 : tokCmp s t = 0 := by rw [h, he]; rfl
      simp only [cmpPre, specPreCompare, h0, if_pos rfl, he]
      exact cmpPre_eq_spec ss ts
    · have h0 : tokCmp s t ≠ 0 := by
        rw [h]; cases ho : specTokenCompare s t
        · simp [ordToInt]
        · exact absurd ho he
        · simp [ordToInt]
      simp only [cmpPre, specPreCompare, if_neg h0, h]
      cases ho : specTokenCompare s t
      · rfl
      · exact absurd ho he
      · rfl

theorem ordToInt_then (o1 o2 : Ordering) :
    ordToInt (o1.then o2) = if ordToInt o1 = 0 then ordToInt o2 else ordToInt o1 := by
  cases o1 <;> simp [Ordering.then, ordToInt]

theorem compare_semver_eq_spec (a b : SemVer) :
    compare_semver a b = specSemVerCompare a b := by
  unfold compare_semver specSemVerCompare
  rw [ordToInt_then, ordToInt_then, ordToInt_then,
    ordToInt_natCompare, ordToInt_natCompare, ordToInt_natCompare]
  by_cases h1 : a.major = b.major
  · by_cases h2 : a.minor = b.minor
    · by_cases h3 : a.patch = b.patch
      · simp only [h1, h2, h3, ne_eq, not_true_eq_false, if_false, if_pos rfl, if_true]
        cases hpa : a.prerelease with
        | nil =>
          cases hpb : b.prerelease with
          | nil => simp [cmpPre, ordToInt]
          | cons u us => simp [ordToInt]
        | cons t ts =>
          cases hpb : b.prerelease with
          | nil => simp [ordToInt]
          | cons u us =>
            simp only [List.isEmpty_cons, Bool.false_and, Bool.and_false,
              Bool.false_eq_true, if_false]
            exact cmpPre_eq_spec (t :: ts) (u :: us)
      · simp only [h1, h2, h3, ne_eq, not_true_eq_false, if_false, if_pos rfl, if_true,
          not_false_eq_true]
        by_cases hlt : a.patch < b.patch <;> simp [hlt]
    · simp only [h1, h2, ne_eq, not_true_eq_false, if_false, if_pos rfl, if_true,
        not_false_eq_true]
      by_cases hlt : a.minor < b.minor <;> simp [hlt]
  · simp only [h1, ne_eq, not_false_eq_true, if_true]
    by_cases hlt : a.major < b.major <;> simp [hlt]

/-! ### Sorting laws for sort_versions_by_semver_desc -/

instance : IsTotal (SemVer × String) semverDescRel :=
  ⟨fun a b => by
    unfold semverDescRel
    have := cs_antisym a.1 b.1
    rcases cs_range a.1 b.1 with h | h | h <;> omega⟩

instance : IsTrans (SemVer × String) semverDescRel :=
  ⟨fun _ _ _ hab hbc => cs_ge_trans hab hbc⟩

theorem parsedPairs_snd (l : List String) :
    (parsedPairs l).map (·.2) = l.filter (fun s => (SemVer.parse s).isSome) := by
  induction l with
  | nil => rfl
  | cons v vs ih =>
    cases h : SemVer.parse v with
    | none => simp [parsedPairs, h, List.filterMap_cons] at ih ⊢; exact ih
    | some sv => simp [parsedPairs, h, List.filterMap_cons] at ih ⊢; exact ih

theorem parsedPairs_consistent {l : List String} {p : SemVer × String}
    (hp : p ∈ parsedPairs l) : SemVer.parse p.2 = some p.1 := by
  unfold parsedPairs at hp
  obtain ⟨v, _, hv⟩ := List.mem_filterMap.mp hp
  cases h : SemVer.parse v with
  | none => rw [h] at hv; simp at hv
  | some sv =>
    rw [h] at hv
    simp only [Option.map_some', Option.some_inj] at hv
    rw [← hv]
    exact h

theorem sortVersions_perm (l : List String) :
    (sort_versions_by_semver_desc l).Perm (l.filter (fun s => (SemVer.parse s).isSome)) := by
  unfold sort_versions_by_semver_desc
  rw [← parsedPairs_snd]
  exact (List.perm_insertionSort semverDescRel (parsedPairs l)).map _

/-- Descending SemVer order on version strings, used to state sortedness. -/
def strGE (a b : String) : Prop :=
  ∃ x y, SemVer.parse a = some x ∧ SemVer.parse b = some y ∧ 0 ≤ compare_semver x y

theorem sortVersions_pairwise (l : List String) :
    (sort_versions_by_semver_desc l).Pairwise strGE := by
  unfold sort_versions_by_semver_desc
  have hs : (List.insertionSort semverDescRel (parsedPairs l)).Pairwise semverDescRel :=
    List.sorted_insertionSort semverDescRel (parsedPairs l)
  have hs' : (List.insertionSort semverDescRel (parsedPairs l)).Pairwise
      (fun p q => strGE p.2 q.2) := by
    refine hs.imp_of_mem ?_
    intro p q hp hq hr
    have hp' := parsedPairs_consistent ((List.mem_insertionSort semverDescRel).mp hp)
    have hq' := parsedPairs_consistent ((List.mem_insertionSort semverDescRel).mp hq)
    exact ⟨p.1, q.1, hp', hq', hr⟩
  exact hs'.map _ (fun _ _ h => h)

/-- Class membership used to state stability: same SemVer rank as the string `z`. -/
def sameRank (z s : String) : Bool :=
  match SemVer.parse s, SemVer.parse z with
  | some x, some y => compare_semver x y == 0
  | _, _ => false

theorem orderedInsert_filter_pos {P : SemVer × String → Bool}
    (hcls : ∀ p q, P p = true → P q = true → semverDescRel p q)
    (x : SemVer × String) (hx : P x = true) :
    ∀ l : List (SemVer × String),
      (List.orderedInsert semverDescRel x l).filter P = x :: l.filter P
  | [] => by simp [List.orderedInsert, hx]
  | y :: ys => by
    by_cases hr : semverDescRel x y
    · rw [List.orderedInsert_of_le _ _ hr, List.filter_cons, hx]
      simp
    · have hy : P y = false := by
        cases hPy : P y with
        | false => rfl
        | true => exact absurd (hcls x y hx hPy) hr
      simp only [List.orderedInsert, if_neg hr, List.filter_cons, hy,
        Bool.false_eq_true, if_false]
      exact orderedInsert_filter_pos hcls x hx ys

theorem orderedInsert_filter_neg {P : SemVer × String → Bool}
    (x : SemVer × String) (hx : P x = false) :
    ∀ l : List (SemVer × String),
      (List.orderedInsert semverDescRel x l).filter P = l.filter P
  | [] => by simp [List.orderedInsert, hx]
  | y :: ys => by
    by_cases hr : semverDescRel x y
    · rw [List.orderedInsert_of_le _ _ hr]
      simp [List.filter_cons, hx]
    · simp only [List.orderedInsert, if_neg hr, List.filter_cons]
      rw [orderedInsert_filter_neg x hx ys]

theorem insertionSort_filter {P : SemVer × String → Bool}
    (hcls : ∀ p q, P p = true → P q = true → semverDescRel p q) :
    ∀ l : List (SemVer × String),
      (List.insertionSort semverDescRel l).filter P = l.filter P
  | [] => rfl
  | x :: xs => by
    rw [List.insertionSort]
    cases hx : P x with
    | true =>
      rw [orderedInsert_filter_pos hcls x hx, insertionSort_filter hcls xs,
        List.filter_cons, hx]
      simp
    | false =>
      rw [orderedInsert_filter_neg x hx, insertionSort_filter hcls xs,
        List.filter_cons, hx]
      simp

theorem sortVersions_stable (l : List String) (z : String) :
    (sort_versions_by_semver_desc l).filter (sameRank z) =
      (l.filter (fun s => (SemVer.parse s).isSome)).filter (sameRank z) := by
  cases hz : SemVer.parse z with
  | none =>
    have hnone : ∀ s, sameRank z s = false := by
      intro s
      unfold sameRank
      rw [hz]
      cases SemVer.parse s <;> rfl
    rw [List.filter_eq_nil_iff.mpr (fun s _ => by rw [hnone s]; simp),
      List.filter_eq_nil_iff.mpr (fun s _ => by rw [hnone s]; simp)]
  | some zv =>
    unfold sort_versions_by_semver_desc
    rw [← parsedPairs_snd, List.filter_map, List.filter_map]
    have hcongr : ∀ L : List (SemVer × String), (∀ p ∈ L, SemVer.parse p.2 = some p.1) →
        L.filter (sameRank z ∘ (·.2)) =
          L.filter (fun p => compare_semver p.1 zv == 0) := by
      intro L hL
      apply List.filter_congr
      intro p hp
      simp only [Function.comp_apply, sameRank, hL p hp, hz]
    rw [hcongr _ (fun p hp =>
      parsedPairs_consistent ((List.mem_insertionSort semverDescRel).mp hp))]
    rw [hcongr _ (fun p hp => parsedPairs_consistent hp)]
    congr 1
    apply insertionSort_filter
    intro p q hp hq
    simp only [beq_iff_eq] at hp hq
    unfold semverDescRel
    have h1 : compare_semver p.1 q.1 = compare_semver zv q.1 := cs_substL hp q.1
    have h2 : compare_semver zv q.1 = -compare_semver q.1 zv := cs_antisym zv q.1
    rw [h1, h2, hq]
    omega

/-! ### Laws of the highest-SemVer selection -/

/-- Every version string in the list parses. -/
def AllPV (l : List VersionRec) : Prop :=
  ∀ v ∈ l, (SemVer.parse v.version).isSome = true

theorem foldl_maxStep_some : ∀ (l : List VersionRec) (b : VersionRec),
    ∃ m, l.foldl maxStep (some b) = some m ∧ (m = b ∨ m ∈ l)
  | [], b => ⟨b, rfl, Or.inl rfl⟩
  | v :: vs, b => by
    simp only [List.foldl_cons, maxStep]
    by_cases h : 0 < cmpStr v.version b.version
    · rw [if_pos h]
      obtain ⟨m, hm, hmem⟩ := foldl_maxStep_some vs v
      refine ⟨m, hm, ?_⟩
      rcases hmem with rfl | hmem
      · simp
      · simp [hmem]
    · rw [if_neg h]
      obtain ⟨m, hm, hmem⟩ := foldl_maxStep_some vs b
      refine ⟨m, hm, ?_⟩
      rcases hmem with rfl | hmem
      · simp
      · simp [hmem]

theorem maxByVersion_none_iff {l : List VersionRec} : maxByVersion l = none ↔ l = [] := by
  cases l with
  | nil => simp [maxByVersion]
  | cons v vs =>
    simp only [maxByVersion, List.foldl_cons]
    obtain ⟨m, hm, _⟩ := foldl_maxStep_some vs v
    simp [maxStep, hm]

theorem maxByVersion_mem {l : List VersionRec} {m : VersionRec}
    (h : maxByVersion l = some m) : m ∈ l := by
  cases l with
  | nil => simp [maxByVersion] at h
  | cons v vs =>
    simp only [maxByVersion, List.foldl_cons, maxStep] at h
    obtain ⟨m', hm', hmem⟩ := foldl_maxStep_some vs v
    rw [hm'] at h
    cases h
    rcases hmem with rfl | hmem
    · simp
    · simp [hmem]

theorem foldl_maxStep_decomp : ∀ (l : List VersionRec) (b m : VersionRec),
    (∀ v ∈ l, (SemVer.parse v.version).isSome = true) →
    (SemVer.parse b.version).isSome = true →
    l.foldl maxStep (some b) = some m →
    (m = b ∧ ∀ v ∈ l, cmpStr v.version b.version ≤ 0) ∨
    (∃ l₁ l₂, l = l₁ ++ m :: l₂ ∧ 0 < cmpStr m.version b.version ∧
      (∀ v ∈ l₁, 0 < cmpStr m.version v.version) ∧
      (∀ v ∈ l₂, 0 ≤ cmpStr m.version v.version))
  | [], b, m, _, _, h => by
    simp only [List.foldl_nil, Option.some_inj] at h
    exact Or.inl ⟨h.symm, by simp⟩
  | w :: rest, b, m, hp, hpb, h => by
    have hpw : (SemVer.parse w.version).isSome = true := hp w (by simp)
    have hprest : ∀ v ∈ rest, (SemVer.parse v.version).isSome = true :=
      fun v hv => hp v (by simp [hv])
    simp only [List.foldl_cons, maxStep] at h
    by_cases hw : 0 < cmpStr w.version b.version
    · rw [if_pos hw] at h
      rcases foldl_maxStep_decomp rest w m hprest hpw h with ⟨rfl, hbound⟩ | hR
      · refine Or.inr ⟨[], rest, by simp, hw, by simp, ?_⟩
        intro v hv
        have hpv := hprest v hv
        exact cmpStr_nonneg_of_not_pos hpw hpv (by have := hbound v hv; omega)
      · obtain ⟨r₁, r₂, hrest, hmw, hb1, hb2⟩ := hR
        have hpm : (SemVer.parse m.version).isSome = true := by
          have : m ∈ rest := by rw [hrest]; simp
          exact hprest m this
        refine Or.inr ⟨w :: r₁, r₂, by simp [hrest], ?_, ?_, hb2⟩
        · exact cmpStr_gt_of_gt_ge hpm hpw hpb hmw (le_of_lt hw)
        · intro v hv
          rcases List.mem_cons.mp hv with rfl | hv
          · exact hmw
          · exact hb1 v hv
    · rw [if_neg hw] at h
      rcases foldl_maxStep_decomp rest b m hprest hpb h with ⟨rfl, hbound⟩ | hR
      · refine Or.inl ⟨rfl, ?_⟩
        intro v hv
        rcases List.mem_cons.mp hv with rfl | hv
        · omega
        · exact hbound v hv
      · obtain ⟨r₁, r₂, hrest, hmb, hb1, hb2⟩ := hR
        have hpm : (SemVer.parse m.version).isSome = true := by
          have : m ∈ rest := by rw [hrest]; simp
          exact hprest m this
        refine Or.inr ⟨w :: r₁, r₂, by simp [hrest], hmb, ?_, hb2⟩
        intro v hv
        rcases List.mem_cons.mp hv with rfl | hv
        · have hbw : 0 ≤ cmpStr b.version v.version :=
            cmpStr_nonneg_of_not_pos hpb (hp v (by simp)) hw
          exact cmpStr_gt_of_gt_ge hpm hpb (hp v (by simp)) hmb hbw
        · exact hb1 v hv

theorem maxByVersion_decomp {l : List VersionRec} {m : VersionRec}
    (hp : ∀ v ∈ l, (SemVer.parse v.version).isSome = true)
    (h : maxByVersion l = some m) :
    ∃ l₁ l₂, l = l₁ ++ m :: l₂ ∧ (∀ v ∈ l₁, 0 < cmpStr m.version v.version) ∧
      (∀ v ∈ l₂, 0 ≤ cmpStr m.version v.version) := by
  cases l with
  | nil => simp [maxByVersion] at h
  | cons w rest =>
    have hpw : (SemVer.parse w.version).isSome = true := hp w (by simp)
    have hprest : ∀ v ∈ rest, (SemVer.parse v.version).isSome = true :=
      fun v hv => hp v (by simp [hv])
    have h' : rest.foldl maxStep (some w) = some m := by
      simpa [maxByVersion, List.foldl_cons, maxStep] using h
    rcases foldl_maxStep_decomp rest w m hprest hpw h' with ⟨rfl, hbound⟩ | hR
    · refine ⟨[], rest, by simp, by simp, ?_⟩
      intro v hv
      exact cmpStr_nonneg_of_not_pos hpw (hprest v hv) (by have := hbound v hv; omega)
    · obtain ⟨r₁, r₂, hrest, hmw, hb1, hb2⟩ := hR
      refine ⟨w :: r₁, r₂, by simp [hrest], ?_, hb2⟩
      intro v hv
      rcases List.mem_cons.mp hv with rfl | hv
      · exact hmw
      · exact hb1 v hv

theorem foldl_maxStep_const : ∀ (l : List VersionRec) (m : VersionRec),
    (∀ v ∈ l, ¬ 0 < cmpStr v.version m.version) →
    l.foldl maxStep (some m) = some m
  | [], _, _ => rfl
  | v :: vs, m, h => by
    simp only [List.foldl_cons, maxStep, if_neg (h v (by simp))]
    exact foldl_maxStep_const vs m (fun w hw => h w (by simp [hw]))

theorem maxByVersion_of_decomp {l₁ l₂ : List VersionRec} {m : VersionRec}
    (hp : ∀ v ∈ l₁ ++ m :: l₂, (SemVer.parse v.version).isSome = true)
    (hb1 : ∀ v ∈ l₁, 0 < cmpStr m.version v.version)
    (hb2 : ∀ v ∈ l₂, 0 ≤ cmpStr m.version v.version) :
    maxByVersion (l₁ ++ m :: l₂) = some m := by
  have hpm : (SemVer.parse m.version).isSome = true := hp m (by simp)
  unfold maxByVersion
  rw [List.foldl_append, List.foldl_cons]
  have hstep : maxStep (l₁.foldl maxStep none) m = some m := by
    cases hacc : l₁.foldl maxStep none with
    | none => rfl
    | some b =>
      have hbmem : b ∈ l₁ := by
        cases l₁ with
        | nil => simp at hacc
        | cons w ws =>
          rw [List.foldl_cons] at hacc
          obtain ⟨m', hm', hmem⟩ := foldl_maxStep_some ws w
          rw [show maxStep none w = some w from rfl] at hacc
          rw [hm'] at hacc
          cases hacc
          rcases hmem with rfl | hmem
          · simp
          · simp [hmem]
      simp [maxStep, hb1 b hbmem]
  rw [hstep]
  apply foldl_maxStep_const
  intro v hv
  have hpv : (SemVer.parse v.version).isSome = true := hp v (by simp [hv])
  have := cmpStr_antisym hpv hpm
  have := hb2 v hv
  omega

theorem maxByVersion_map {F : VersionRec → VersionRec}
    (hF : ∀ v, (F v).version = v.version) (l : List VersionRec) :
    maxByVersion (l.map F) = (maxByVersion l).map F := by
  suffices h : ∀ acc : Option VersionRec,
      (l.map F).foldl maxStep (acc.map F) = (l.foldl maxStep acc).map F by
    simpa using h none
  induction l with
  | nil => intro acc; simp
  | cons v vs ih =>
    intro acc
    have hs : maxStep (acc.map F) (F v) = (maxStep acc v).map F := by
      cases acc with
      | none => rfl
      | some b => simp only [Option.map_some', maxStep, hF]; split_ifs <;> rfl
    simp only [List.map_cons, List.foldl_cons, hs, ih]

theorem maxByVersion_sublist {l l' : List VersionRec} {m : VersionRec}
    (hl : List.Sublist l' l) (hm : m ∈ l') (hmax : maxByVersion l = some m)
    (hp : ∀ v ∈ l, (SemVer.parse v.version).isSome = true)
    (hnd : (l.map (·.version)).Nodup) : maxByVersion l' = some m := by
  obtain ⟨l₁, l₂, hdec, hb1, hb2⟩ := maxByVersion_decomp hp hmax
  have hpm : (SemVer.parse m.version).isSome = true := hp m (maxByVersion_mem hmax)
  rw [hdec] at hl hnd
  obtain ⟨a, b, hab, ha, hb⟩ := List.sublist_append_iff.mp hl
  have hma : m ∉ a := by
    intro hma
    have := hb1 m (ha.subset hma)
    rw [cmpStr_refl hpm] at this
    omega
  have hmb : m ∈ b := by
    rcases List.mem_append.mp (hab ▸ hm) with h | h
    · exact absurd h hma
    · exact h
  rcases List.sublist_cons_iff.mp hb with hbl2 | ⟨r, rfl, hr⟩
  · exfalso
    have hmv : m.version ∈ l₂.map (·.version) := List.mem_map_of_mem _ (hbl2.subset hmb)
    rw [List.map_append, List.map_cons] at hnd
    have := (List.nodup_append.mp hnd).2.1
    exact (List.nodup_cons.mp this).1 hmv
  · rw [hab]
    apply maxByVersion_of_decomp
    · intro v hv
      apply hp
      rw [hdec]
      rcases List.mem_append.mp hv with h | h
      · exact List.mem_append.mpr (Or.inl (ha.subset h))
      · rcases List.mem_cons.mp h with rfl | h
        · simp
        · exact List.mem_append.mpr (Or.inr (by simp [hr.subset h]))
    · exact fun v hv => hb1 v (ha.subset hv)
    · exact fun v hv => hb2 v (hr.subset hv)

/-! ### Engine-state infrastructure -/

theorem patchRec_version (p : PatchCall) (v : VersionRec) :
    (patchRec p v).version = v.version := by
  unfold patchRec; split_ifs <;> rfl

theorem patchRec_status (p : PatchCall) (v : VersionRec) :
    (patchRec p v).release_status = v.release_status := by
  unfold patchRec; split_ifs <;> rfl

theorem find?_append_of_left_none {α : Type} {p : α → Bool} {l₁ l₂ : List α}
    (h : ∀ x ∈ l₁, p x = false) : List.find? p (l₁ ++ l₂) = List.find? p l₂ := by
  induction l₁ with
  | nil => rfl
  | cons x xs ih =>
    simp only [List.cons_append, List.find?_cons, h x (by simp)]
    exact ih (fun y hy => h y (by simp [hy]))

theorem find?_filter_of_imp {α : Type} {p keep : α → Bool}
    (h : ∀ x, p x = true → keep x = true) (l : List α) :
    List.find? p (l.filter keep) = List.find? p l := by
  induction l with
  | nil => rfl
  | cons x xs ih =>
    cases hk : keep x with
    | true =>
      cases hp : p x with
      | true => simp [List.filter_cons, hk, List.find?_cons, hp]
      | false => simp [List.filter_cons, hk, List.find?_cons, hp, ih]
    | false =>
      have hp : p x = false := by
        cases hp : p x with
        | false => rfl
        | true => rw [h x hp] at hk; exact hk
      simp [List.filter_cons, hk, List.find?_cons, hp, ih]

theorem lookupProp_promote (props : List (String × List String)) (w : VersionRec) :
    lookupProp (patchProps props (promotePatch w)) BACKUP_BEFORE_LATEST = some [w.tag] := by
  unfold lookupProp patchProps promotePatch
  rw [find?_append_of_left_none]
  · rfl
  · intro q hq
    have := (List.mem_filter.mp hq).2
    simp only [List.map_cons, List.map_nil, List.contains_cons, List.contains_nil,
      Bool.or_false, Bool.not_eq_eq_eq_not, Bool.not_true] at this
    simp only [decide_eq_false_iff_not]
    intro hcontra
    rw [hcontra] at this
    simp at this

theorem find?_append_of_right_none {α : Type} {p : α → Bool} {l₁ l₂ : List α}
    (h : ∀ x ∈ l₂, p x = false) : List.find? p (l₁ ++ l₂) = List.find? p l₁ := by
  induction l₁ with
  | nil =>
    simp only [List.nil_append, List.find?_nil]
    rw [List.find?_eq_none]
    intro x hx
    rw [h x hx]
    simp
  | cons x xs ih =>
    cases hp : p x with
    | true => simp [List.find?_cons, hp]
    | false => simp [List.find?_cons, hp, ih]

theorem lookupProp_restore (props : List (String × List String)) (w : VersionRec) :
    lookupProp (patchProps props (restorePatch w)) BACKUP_BEFORE_LATEST = none := by
  unfold lookupProp patchProps restorePatch
  rw [Option.map_eq_none']
  rw [List.find?_eq_none]
  intro q hq
  simp only [List.append_nil] at hq
  have := (List.mem_filter.mp (List.mem_filter.mp hq).1).2
  simp only [List.contains_cons, List.contains_nil, Bool.or_false,
    Bool.not_eq_eq_eq_not, Bool.not_true] at this
  by_cases hck : q.1 = BACKUP_BEFORE_LATEST
  · exfalso; rw [hck] at this; simp at this
  · simp [hck]

theorem lookupProp_patch_other (props : List (String × List String)) (p : PatchCall)
    (k : String) (hdel : p.delete_properties.contains k = false)
    (hset : (p.set_properties.map (·.1)).contains k = false) :
    lookupProp (patchProps props p) k = lookupProp props k := by
  unfold lookupProp patchProps
  rw [find?_append_of_right_none, find?_filter_of_imp, find?_filter_of_imp]
  · intro q hq
    simp only [decide_eq_true_eq] at hq
    simp only [hq, Bool.not_eq_eq_eq_not, Bool.not_false]
    cases hc : p.delete_properties.contains k with
    | false => rfl
    | true => rw [hc] at hdel; exact absurd hdel (by simp)
  · intro q hq
    simp only [decide_eq_true_eq] at hq
    simp only [hq, Bool.not_eq_eq_eq_not, Bool.not_false]
    cases hc : (p.set_properties.map (·.1)).contains k with
    | false => rfl
    | true => rw [hc] at hset; exact absurd hset (by simp)
  · intro q hq
    simp only [decide_eq_false_iff_not]
    intro hk
    have hmem : k ∈ p.set_properties.map (·.1) := hk ▸ List.mem_map_of_mem _ hq
    have : (p.set_properties.map (·.1)).contains k = true :=
      List.elem_eq_true_of_mem hmem
    rw [this] at hset
    exact absurd hset (by simp)

/-- Per-record result of a patch sequence: the first patch naming the record's
version applies (distinct-version sequences have at most one). -/
def patchFn (pcs : List PatchCall) (v : VersionRec) : VersionRec :=
  match pcs.find? (fun p => p.version = v.version) with
  | some p => patchRec p v
  | none => v

theorem patchFn_version (pcs : List PatchCall) (v : VersionRec) :
    (patchFn pcs v).version = v.version := by
  unfold patchFn
  cases pcs.find? (fun p => p.version = v.version) with
  | none => rfl
  | some p => exact patchRec_version p v

theorem patchFn_status (pcs : List PatchCall) (v : VersionRec) :
    (patchFn pcs v).release_status = v.release_status := by
  unfold patchFn
  cases pcs.find? (fun p => p.version = v.version) with
  | none => rfl
  | some p => exact patchRec_status p v

/-- applyPatches over patches with pairwise-distinct target versions acts
record-wise through the first (unique) matching patch. -/
theorem applyPatches_find : ∀ (pcs : List PatchCall) (vs : List VersionRec),
    (pcs.map (·.version)).Nodup →
    applyPatches vs pcs = vs.map (patchFn pcs)
  | [], vs, _ => by
    show vs = List.map (patchFn []) vs
    have h1 : List.map (patchFn []) vs = List.map id vs :=
      List.map_congr_left (fun v _ => (rfl : patchFn [] v = id v))
    rw [h1, List.map_id]
  | p :: rest, vs, hnd => by
    have hnd' : (rest.map (·.version)).Nodup := (List.nodup_cons.mp (by simpa using hnd)).2
    have hpv : p.version ∉ rest.map (·.version) := (List.nodup_cons.mp (by simpa using hnd)).1
    have step : applyPatches vs (p :: rest) = applyPatches (vs.map (patchRec p)) rest := rfl
    rw [step, applyPatches_find rest _ hnd', List.map_map]
    apply List.map_congr_left
    intro v _
    unfold patchFn
    simp only [Function.comp_apply, patchRec_version]
    by_cases hv : p.version = v.version
    · have hfind : rest.find? (fun q => q.version = v.version) = none := by
        rw [List.find?_eq_none]
        intro q hq
        by_cases hqv : q.version = v.version
        · exfalso
          apply hpv
          rw [hv, ← hqv]
          exact List.mem_map_of_mem _ hq
        · simp [hqv]
      rw [hfind, List.find?_cons_of_pos _ (by simpa using hv)]
    · have hpr : patchRec p v = v := by
        unfold patchRec; rw [if_neg (fun hh => hv hh.symm)]
      rw [List.find?_cons_of_neg _ (by simpa using hv), hpr]

theorem applyPatches_versions (vs : List VersionRec) (pcs : List PatchCall) :
    (applyPatches vs pcs).map (·.version) = vs.map (·.version) := by
  induction pcs generalizing vs with
  | nil => rfl
  | cons p rest ih =>
    have step : applyPatches vs (p :: rest) = applyPatches (vs.map (patchRec p)) rest := rfl
    rw [step, ih, List.map_map]
    apply List.map_congr_left
    intro v _
    exact patchRec_version p v

theorem filter_sublist_of_imp {α : Type} {p q : α → Bool} :
    ∀ {l : List α}, (∀ v ∈ l, p v = true → q v = true) →
      List.Sublist (l.filter p) (l.filter q)
  | [], _ => List.Sublist.refl _
  | v :: vs, h => by
    have ih := filter_sublist_of_imp
      (l := vs) (fun w hw hpw => h w (List.mem_cons_of_mem v hw) hpw)
    cases hp : p v with
    | true =>
      have hq := h v (by simp) hp
      simp only [List.filter_cons, hp, hq, if_pos]
      exact List.Sublist.cons₂ v ih
    | false =>
      cases hq : q v with
      | true =>
        simp only [List.filter_cons, hp, hq]
        exact List.Sublist.cons v ih
      | false =>
        simp only [List.filter_cons, hp, hq]
        exact ih

theorem filter_eq_singleton_of_iff {α : Type} {p : α → Bool} {d : α} :
    ∀ (l : List α), l.Nodup → d ∈ l → (∀ v ∈ l, (p v = true ↔ v = d)) →
      l.filter p = [d]
  | [], _, hd, _ => absurd hd (by simp)
  | v :: vs, hnd, hd, hiff => by
    rcases List.mem_cons.mp hd with rfl | hd'
    · have hp : p d = true := (hiff d (by simp)).mpr rfl
      have hnil : vs.filter p = [] := by
        rw [List.filter_eq_nil_iff]
        intro w hw
        intro hpw
        have := (hiff w (by simp [hw])).mp hpw
        subst this
        exact (List.nodup_cons.mp hnd).1 hw
      simp [List.filter_cons, hp, hnil]
    · have hv : p v = false := by
        cases hpv : p v with
        | false => rfl
        | true =>
          have := (hiff v (by simp)).mp hpv
          subst this
          exact absurd hd' (List.nodup_cons.mp hnd).1
      simp only [List.filter_cons, hv, Bool.false_eq_true, if_false]
      exact filter_eq_singleton_of_iff vs (List.nodup_cons.mp hnd).2 hd'
        (fun w hw => hiff w (by simp [hw]))

/-- Two records of a version-Nodup list sharing a version string are the same record. -/
theorem nodup_version_inj {vs : List VersionRec} (hnd : (vs.map (·.version)).Nodup)
    {v w : VersionRec} (hv : v ∈ vs) (hw : w ∈ vs) (h : v.version = w.version) : v = w := by
  have := List.inj_on_of_nodup_map hnd
  exact this hv hw h

theorem isPrefixOf_append (l r : List Char) : List.isPrefixOf l (l ++ r) = true := by
  induction l with
  | nil => simp
  | cons c cs ih => simp [List.isPrefixOf, ih]

theorem isQuarantineTag_append (s : String) :
    isQuarantineTag ("quarantine-" ++ s) = true := by
  unfold isQuarantineTag
  rw [String.data_append]
  exact isPrefixOf_append _ _

theorem latest_not_quarantine : isQuarantineTag LATEST_TAG = false := by decide

theorem quarantine_ne_latest {t : String} (h : isQuarantineTag t = true) : t ≠ LATEST_TAG := by
  intro hh
  rw [hh, latest_not_quarantine] at h
  exact absurd h (by simp)

theorem candidates_eq_filter (vs : List VersionRec) :
    candidates vs = vs.filter (fun v => isEligible v && !isQuarantineTag v.tag) := by
  unfold candidates prodVersions
  rw [List.filter_filter]
  apply List.filter_congr
  intro v _
  rw [Bool.and_comm]

theorem holders_eq_filter (vs : List VersionRec) :
    holders vs = vs.filter (fun v => isEligible v && decide (v.tag = LATEST_TAG)) := by
  unfold holders prodVersions
  rw [List.filter_filter]
  apply List.filter_congr
  intro v _
  rw [Bool.and_comm]

theorem maxBy_le_all {l : List VersionRec} {m : VersionRec}
    (hp : ∀ v ∈ l, (SemVer.parse v.version).isSome = true)
    (h : maxByVersion l = some m) : ∀ v ∈ l, 0 ≤ cmpStr m.version v.version := by
  obtain ⟨l₁, l₂, hdec, hb1, hb2⟩ := maxByVersion_decomp hp h
  intro v hv
  rw [hdec] at hv
  rcases List.mem_append.mp hv with h1 | h1
  · have := hb1 v h1; omega
  · rcases List.mem_cons.mp h1 with rfl | h1
    · rw [cmpStr_refl (hp v (hdec ▸ hv))]
    · exact hb2 v h1

/-! ### Engine invariants (modelled from the spec, sections 3 and 5) -/

/-- Well-formedness of a Registry state, as maintained by upstream tooling and
the engine: version strings are distinct SemVer identities, any recoverable
`BACKUP_BEFORE_LATEST` tag is not `latest` itself, and versions outside the
production-eligible set never carry `latest`. -/
def Sane (vs : List VersionRec) : Prop :=
  (vs.map (·.version)).Nodup ∧
  (∀ v ∈ vs, (SemVer.parse v.version).isSome = true) ∧
  (∀ v ∈ vs, restoreTagOf v ≠ LATEST_TAG) ∧
  (∀ v ∈ vs, isEligible v = false → v.tag ≠ LATEST_TAG)

/-- The two invariants of spec section 3: at most one `latest` carrier, and the
carrier is a highest production-eligible non-quarantined version. -/
def GoodLatest (vs : List VersionRec) : Prop :=
  (∀ v ∈ vs, ∀ w ∈ vs, v.tag = LATEST_TAG → w.tag = LATEST_TAG → v = w) ∧
  (∀ v ∈ vs, v.tag = LATEST_TAG →
    v ∈ candidates vs ∧ ∀ w ∈ candidates vs, 0 ≤ cmpStr v.version w.version)

/-- One engine run: either a reconciliation or a rollback of some version. -/
inductive EngineStep : List VersionRec → List VersionRec → Prop
  | enforce (vs : List VersionRec) : EngineStep vs (enforceState vs)
  | rollback (vs : List VersionRec) (rb : String) : EngineStep vs (rollbackState vs rb)

theorem mem_candidates_iff {vs : List VersionRec} {v : VersionRec} :
    v ∈ candidates vs ↔ v ∈ vs ∧ isEligible v = true ∧ isQuarantineTag v.tag = false := by
  rw [candidates_eq_filter, List.mem_filter]
  constructor
  · rintro ⟨h1, h2⟩
    rw [Bool.and_eq_true] at h2
    exact ⟨h1, h2.1, by simpa using h2.2⟩
  · rintro ⟨h1, h2, h3⟩
    exact ⟨h1, by simp [h2, h3]⟩

theorem mem_holders_iff {vs : List VersionRec} {v : VersionRec} :
    v ∈ holders vs ↔ v ∈ vs ∧ isEligible v = true ∧ v.tag = LATEST_TAG := by
  rw [holders_eq_filter, List.mem_filter]
  constructor
  · rintro ⟨h1, h2⟩
    rw [Bool.and_eq_true, decide_eq_true_eq] at h2
    exact ⟨h1, h2.1, h2.2⟩
  · rintro ⟨h1, h2, h3⟩
    exact ⟨h1, by simp [h2, h3]⟩

theorem mem_otherHolders_iff {vs : List VersionRec} {d v : VersionRec} :
    v ∈ otherHolders vs d ↔ v ∈ holders vs ∧ v.version ≠ d.version := by
  unfold otherHolders
  rw [List.mem_filter]
  simp

theorem holder_mem_candidates {vs : List VersionRec} {v : VersionRec}
    (h : v ∈ holders vs) : v ∈ candidates vs := by
  obtain ⟨h1, h2, h3⟩ := mem_holders_iff.mp h
  exact mem_candidates_iff.mpr ⟨h1, h2, by rw [h3]; exact latest_not_quarantine⟩

theorem find?_map_restore (oh : List VersionRec) (s : String) :
    List.find? (fun p => p.version = s) (oh.map restorePatch) =
      (oh.find? (fun h => h.version = s)).map restorePatch := by
  induction oh with
  | nil => rfl
  | cons h t ih =>
    by_cases hh : h.version = s
    · simp only [List.map_cons]
      rw [List.find?_cons_of_pos _ (by simpa using hh),
        List.find?_cons_of_pos _ (by simpa using hh)]
      rfl
    · simp only [List.map_cons]
      rw [List.find?_cons_of_neg _ (by simpa using hh),
        List.find?_cons_of_neg _ (by simpa using hh), ih]

/-! ### The reconciliation run establishes the latest-tag invariant -/

theorem latest_holder_of_sane {vs : List VersionRec}
    (hS4 : ∀ v ∈ vs, isEligible v = false → v.tag ≠ LATEST_TAG) :
    ∀ v ∈ vs, v.tag = LATEST_TAG → v ∈ holders vs := by
  intro v hv ht
  refine mem_holders_iff.mpr ⟨hv, ?_, ht⟩
  cases he : isEligible v with
  | true => rfl
  | false => exact absurd ht (hS4 v hv he)

theorem enforcePlan_nodup {vs : List VersionRec} {d : VersionRec}
    (hnd : (vs.map (·.version)).Nodup) :
    ((enforcePlan vs d).map (·.version)).Nodup := by
  have hsub : List.Sublist (otherHolders vs d) vs := by
    have h1 : List.Sublist (otherHolders vs d) (holders vs) := List.filter_sublist _
    have h2 : List.Sublist (holders vs) vs := by
      rw [holders_eq_filter]; exact List.filter_sublist _
    exact h1.trans h2
  have hrv : ((otherHolders vs d).map restorePatch).map (·.version) =
      (otherHolders vs d).map (·.version) := by
    rw [List.map_map]; rfl
  unfold enforcePlan
  rw [List.map_append]
  apply List.Nodup.append
  · by_cases hdt : d.tag = LATEST_TAG
    · rw [if_pos hdt]; exact List.nodup_nil
    · rw [if_neg hdt]; exact List.nodup_singleton _
  · rw [hrv]
    exact List.Nodup.sublist (List.Sublist.map _ hsub) hnd
  · intro a ha hb
    rw [hrv] at hb
    obtain ⟨h, hh, rfl⟩ := List.mem_map.mp hb
    have hne := (mem_otherHolders_iff.mp hh).2
    by_cases hdt : d.tag = LATEST_TAG
    · rw [if_pos hdt] at ha; simp at ha
    · rw [if_neg hdt] at ha
      simp only [List.map_cons, List.map_nil, List.mem_singleton] at ha
      exact hne (by rw [ha]; rfl)

/-- The per-record effect of the reconciliation plan, by case on the record. -/
theorem enforcePlan_patchFn {vs : List VersionRec} {d : VersionRec}
    (hnd : (vs.map (·.version)).Nodup) :
    ∀ v ∈ vs, patchFn (enforcePlan vs d) v =
      (if v.version = d.version then
        (if d.tag = LATEST_TAG then v else patchRec (promotePatch d) v)
       else if v ∈ holders vs then patchRec (restorePatch v) v else v) := by
  intro v hv
  unfold patchFn
  by_cases hvd : v.version = d.version
  · rw [if_pos hvd]
    by_cases hdt : d.tag = LATEST_TAG
    · rw [if_pos hdt]
      have hfind : (enforcePlan vs d).find? (fun p => p.version = v.version) = none := by
        unfold enforcePlan
        rw [if_pos hdt, List.nil_append, List.find?_eq_none]
        intro q hq
        obtain ⟨h, hh, rfl⟩ := List.mem_map.mp hq
        have hne := (mem_otherHolders_iff.mp hh).2
        by_cases hc : (restorePatch h).version = v.version
        · exact absurd (show h.version = d.version by rw [← hvd]; exact hc) hne
        · simp [hc]
      rw [hfind]
    · rw [if_neg hdt]
      have hfind : (enforcePlan vs d).find? (fun p => p.version = v.version) =
          some (promotePatch d) := by
        unfold enforcePlan
        rw [if_neg hdt, List.singleton_append]
        exact List.find?_cons_of_pos _
          (by simpa using (show (promotePatch d).version = v.version from hvd.symm))
      rw [hfind]
  · rw [if_neg hvd]
    have hfind_eq : (enforcePlan vs d).find? (fun p => p.version = v.version) =
        ((otherHolders vs d).find? (fun h => h.version = v.version)).map restorePatch := by
      unfold enforcePlan
      by_cases hdt : d.tag = LATEST_TAG
      · rw [if_pos hdt, List.nil_append, find?_map_restore]
      · rw [if_neg hdt, List.singleton_append,
          List.find?_cons_of_neg _ (by simpa using fun hc : d.version = v.version => hvd hc.symm),
          find?_map_restore]
    by_cases hvh : v ∈ holders vs
    · rw [if_pos hvh]
      have hvo : v ∈ otherHolders vs d := mem_otherHolders_iff.mpr ⟨hvh, hvd⟩
      have hsome : ((otherHolders vs d).find? (fun h => h.version = v.version)).isSome := by
        rw [List.find?_isSome]
        exact ⟨v, hvo, by simp⟩
      obtain ⟨q, hq⟩ := Option.isSome_iff_exists.mp hsome
      have hq1 : q.version = v.version := by simpa using List.find?_some hq
      have hq2 : q ∈ otherHolders vs d := List.mem_of_find?_eq_some hq
      have hqv : q = v := by
        apply nodup_version_inj hnd ?_ hv hq1
        exact (mem_holders_iff.mp (mem_otherHolders_iff.mp hq2).1).1
      rw [hfind_eq, hq, hqv]
      rfl
    · rw [if_neg hvh]
      have hfind : (otherHolders vs d).find? (fun h => h.version = v.version) = none := by
        rw [List.find?_eq_none]
        intro q hq
        by_cases hc : q.version = v.version
        · exfalso
          have hqmem := (mem_otherHolders_iff.mp hq).1
          have : q = v := nodup_version_inj hnd (mem_holders_iff.mp hqmem).1 hv hc
          exact hvh (this ▸ hqmem)
        · simp [hc]
      rw [hfind_eq, hfind]
      rfl

theorem patchRec_promote_self (d : VersionRec) :
    patchRec (promotePatch d) d =
      ⟨d.version, LATEST_TAG, d.release_status, patchProps d.properties (promotePatch d)⟩ := by
  unfold patchRec
  split_ifs with h
  · rfl
  · exact absurd rfl h

theorem patchRec_restore_self (v : VersionRec) :
    patchRec (restorePatch v) v =
      ⟨v.version, restoreTagOf v, v.release_status, patchProps v.properties (restorePatch v)⟩ := by
  unfold patchRec
  split_ifs with h
  · rfl
  · exact absurd rfl h

theorem restoreTagOf_promoted (d v : VersionRec) :
    restoreTagOf
      ⟨v.version, LATEST_TAG, v.release_status, patchProps v.properties (promotePatch d)⟩ =
      d.tag := by
  unfold restoreTagOf
  have : lookupProp (patchProps v.properties (promotePatch d)) BACKUP_BEFORE_LATEST =
      some [d.tag] := lookupProp_promote v.properties d
  rw [this]

theorem restoreTagOf_restored (w v : VersionRec) :
    restoreTagOf
      ⟨v.version, restoreTagOf v, v.release_status, patchProps v.properties (restorePatch w)⟩ =
      "version" := by
  unfold restoreTagOf
  have : lookupProp (patchProps v.properties (restorePatch w)) BACKUP_BEFORE_LATEST = none :=
    lookupProp_restore v.properties w
  rw [this]

theorem version_tag_ne_latest : ("version" : String) ≠ LATEST_TAG := by decide

theorem enforce_establish (vs : List VersionRec) (hs : Sane vs) :
    Sane (enforceState vs) ∧ GoodLatest (enforceState vs) ∧
      enforce_latest_tag_invariants (enforceState vs) = [] := by
  obtain ⟨hnd, hPV, hS3, hS4⟩ := hs
  have latest_holder := latest_holder_of_sane hS4
  cases hmax : maxByVersion (candidates vs) with
  | none =>
    have hpcs : enforce_latest_tag_invariants vs = [] := by
      unfold enforce_latest_tag_invariants; rw [hmax]
    have hstate : enforceState vs = vs := by
      unfold enforceState; rw [hpcs]; rfl
    have hcand : candidates vs = [] := maxByVersion_none_iff.mp hmax
    have hnolatest : ∀ v ∈ vs, v.tag ≠ LATEST_TAG := by
      intro v hv ht
      have := holder_mem_candidates (latest_holder v hv ht)
      rw [hcand] at this
      simp at this
    rw [hstate]
    refine ⟨⟨hnd, hPV, hS3, hS4⟩, ⟨?_, ?_⟩, hpcs⟩
    · intro v hv w hw htv _
      exact absurd htv (hnolatest v hv)
    · intro v hv htv
      exact absurd htv (hnolatest v hv)
  | some d =>
    have hdc : d ∈ candidates vs := maxByVersion_mem hmax
    obtain ⟨hdmem, hdelig, hdnq⟩ := mem_candidates_iff.mp hdc
    have hcPV : ∀ v ∈ candidates vs, (SemVer.parse v.version).isSome = true :=
      fun v hv => hPV v (mem_candidates_iff.mp hv).1
    have hbound : ∀ w ∈ candidates vs, 0 ≤ cmpStr d.version w.version :=
      maxBy_le_all hcPV hmax
    by_cases hh : holders vs = [d]
    · have hpcs : enforce_latest_tag_invariants vs = [] := by
        unfold enforce_latest_tag_invariants; rw [hmax]; exact if_pos hh
      have hstate : enforceState vs = vs := by unfold enforceState; rw [hpcs]; rfl
      have honly : ∀ v ∈ vs, v.tag = LATEST_TAG → v = d := by
        intro v hv ht
        have := latest_holder v hv ht
        rw [hh] at this
        simpa using this
      rw [hstate]
      refine ⟨⟨hnd, hPV, hS3, hS4⟩, ⟨?_, ?_⟩, ?_⟩
      · intro v hv w hw htv htw
        rw [honly v hv htv, honly w hw htw]
      · intro v hv htv
        rw [honly v hv htv]
        exact ⟨hdc, hbound⟩
      · exact hpcs
    · -- the non-trivial reconciliation
      have hpcs : enforce_latest_tag_invariants vs = enforcePlan vs d := by
        unfold enforce_latest_tag_invariants; rw [hmax]; exact if_neg hh
      have hstate : enforceState vs = vs.map (patchFn (enforcePlan vs d)) := by
        unfold enforceState
        rw [hpcs]
        exact applyPatches_find _ vs (enforcePlan_nodup hnd)
      have hupd := enforcePlan_patchFn (d := d) hnd
      have hPver : ∀ v, (patchFn (enforcePlan vs d) v).version = v.version :=
        patchFn_version _
      have hPstat : ∀ v, (patchFn (enforcePlan vs d) v).release_status = v.release_status :=
        patchFn_status _
      have hElig : ∀ v, isEligible (patchFn (enforcePlan vs d) v) = isEligible v := by
        intro v
        unfold isEligible
        rw [hPstat v]
      have hd' : patchFn (enforcePlan vs d) d =
          (if d.tag = LATEST_TAG then d
           else ⟨d.version, LATEST_TAG, d.release_status,
                 patchProps d.properties (promotePatch d)⟩) := by
        rw [hupd d hdmem, if_pos rfl]
        by_cases hdt : d.tag = LATEST_TAG
        · rw [if_pos hdt, if_pos hdt]
        · rw [if_neg hdt, if_neg hdt, patchRec_promote_self]
      have htag_d : (patchFn (enforcePlan vs d) d).tag = LATEST_TAG := by
        rw [hd']
        by_cases hdt : d.tag = LATEST_TAG
        · rw [if_pos hdt]; exact hdt
        · rw [if_neg hdt]
      have htag_iff : ∀ v ∈ vs,
          ((patchFn (enforcePlan vs d) v).tag = LATEST_TAG ↔ v.version = d.version) := by
        intro v hv
        constructor
        · intro ht
          by_contra hvd
          rw [hupd v hv, if_neg hvd] at ht
          by_cases hvh : v ∈ holders vs
          · rw [if_pos hvh, patchRec_restore_self] at ht
            exact hS3 v hv ht
          · rw [if_neg hvh] at ht
            exact hvh (latest_holder v hv ht)
        · intro hvd
          have hveq : v = d := nodup_version_inj hnd hv hdmem hvd
          rw [hveq]
          exact htag_d
      have hS3' : ∀ v ∈ vs, restoreTagOf (patchFn (enforcePlan vs d) v) ≠ LATEST_TAG := by
        intro v hv
        rw [hupd v hv]
        by_cases hvd : v.version = d.version
        · rw [if_pos hvd]
          by_cases hdt : d.tag = LATEST_TAG
          · rw [if_pos hdt]; exact hS3 v hv
          · rw [if_neg hdt]
            have hveq : v = d := nodup_version_inj hnd hv hdmem hvd
            subst hveq
            rw [patchRec_promote_self, restoreTagOf_promoted]
            exact hdt
        · rw [if_neg hvd]
          by_cases hvh : v ∈ holders vs
          · rw [if_pos hvh, patchRec_restore_self, restoreTagOf_restored]
            exact version_tag_ne_latest
          · rw [if_neg hvh]; exact hS3 v hv
      have hCimp : ∀ v ∈ vs,
          (isEligible (patchFn (enforcePlan vs d) v) &&
            !isQuarantineTag (patchFn (enforcePlan vs d) v).tag) = true →
          (isEligible v && !isQuarantineTag v.tag) = true := by
        intro v hv hC
        by_cases hvd : v.version = d.version
        · have hveq : v = d := nodup_version_inj hnd hv hdmem hvd
          subst hveq
          simp [hdelig, hdnq]
        · by_cases hvh : v ∈ holders vs
          · obtain ⟨_, h2, h3⟩ := mem_candidates_iff.mp (holder_mem_candidates hvh)
            simp [h2, h3]
          · rw [hupd v hv, if_neg hvd, if_neg hvh] at hC
            exact hC
      -- versions of the new state
      have hver_map : (vs.map (patchFn (enforcePlan vs d))).map (·.version) =
          vs.map (·.version) := by
        rw [List.map_map]
        exact List.map_congr_left (fun v _ => hPver v)
      have hnd' : ((vs.map (patchFn (enforcePlan vs d))).map (·.version)).Nodup := by
        rw [hver_map]; exact hnd
      -- Sane of the new state
      have hSane' : Sane (vs.map (patchFn (enforcePlan vs d))) := by
        refine ⟨hnd', ?_, ?_, ?_⟩
        · intro v' hv'
          obtain ⟨v, hv, rfl⟩ := List.mem_map.mp hv'
          rw [hPver v]
          exact hPV v hv
        · intro v' hv'
          obtain ⟨v, hv, rfl⟩ := List.mem_map.mp hv'
          exact hS3' v hv
        · intro v' hv' helig
          obtain ⟨v, hv, rfl⟩ := List.mem_map.mp hv'
          rw [hElig v] at helig
          have helig' : isEligible v = false := helig
          have hvd : ¬ v.version = d.version := by
            intro hvd
            have hveq : v = d := nodup_version_inj hnd hv hdmem hvd
            rw [hveq, hdelig] at helig'
            exact absurd helig' (by simp)
          have hvh : v ∉ holders vs := by
            intro hvh
            rw [(mem_holders_iff.mp hvh).2.1] at helig'
            exact absurd helig' (by simp)
          rw [hupd v hv, if_neg hvd, if_neg hvh]
          exact hS4 v hv helig'
      -- GoodLatest of the new state
      have hGood' : GoodLatest (vs.map (patchFn (enforcePlan vs d))) := by
        constructor
        · intro v' hv' w' hw' htv htw
          obtain ⟨v, hv, rfl⟩ := List.mem_map.mp hv'
          obtain ⟨w, hw, rfl⟩ := List.mem_map.mp hw'
          have h1 := (htag_iff v hv).mp htv
          have h2 := (htag_iff w hw).mp htw
          have : v = w := nodup_version_inj hnd hv hw (by rw [h1, h2])
          rw [this]
        · intro v' hv' htv
          obtain ⟨v, hv, rfl⟩ := List.mem_map.mp hv'
          have h1 := (htag_iff v hv).mp htv
          have hveq : v = d := nodup_version_inj hnd hv hdmem h1
          subst hveq
          constructor
          · refine mem_candidates_iff.mpr ⟨List.mem_map_of_mem _ hv, ?_, ?_⟩
            · rw [hElig v]; exact hdelig
            · rw [htv]; exact latest_not_quarantine
          · intro w' hw'
            obtain ⟨hw'mem, hw'e, hw'q⟩ := mem_candidates_iff.mp hw'
            obtain ⟨w, hw, rfl⟩ := List.mem_map.mp hw'mem
            rw [hPver v, hPver w]
            have hCw : (isEligible w && !isQuarantineTag w.tag) = true :=
              hCimp w hw (by simp [hw'e, hw'q])
            rw [Bool.and_eq_true] at hCw
            by_cases hwd : w.version = v.version
            · rw [hwd, cmpStr_refl (hPV v hv)]
            · have hwc : w ∈ candidates vs :=
                mem_candidates_iff.mpr ⟨hw, hCw.1, by simpa using hCw.2⟩
              exact hbound w hwc
      -- the second run is a no-op
      have hconv : enforce_latest_tag_invariants (vs.map (patchFn (enforcePlan vs d))) = [] := by
        have hCfilter : candidates (vs.map (patchFn (enforcePlan vs d))) =
            (vs.filter (fun v => isEligible (patchFn (enforcePlan vs d) v) &&
              !isQuarantineTag (patchFn (enforcePlan vs d) v).tag)).map
                (patchFn (enforcePlan vs d)) := by
          rw [candidates_eq_filter, List.filter_map]
          rfl
        have hsubC : List.Sublist
            (vs.filter (fun v => isEligible (patchFn (enforcePlan vs d) v) &&
              !isQuarantineTag (patchFn (enforcePlan vs d) v).tag))
            (vs.filter (fun v => isEligible v && !isQuarantineTag v.tag)) :=
          filter_sublist_of_imp hCimp
        have hdin : d ∈ vs.filter (fun v => isEligible (patchFn (enforcePlan vs d) v) &&
            !isQuarantineTag (patchFn (enforcePlan vs d) v).tag) := by
          rw [List.mem_filter]
          refine ⟨hdmem, ?_⟩
          rw [htag_d]
          simp only [latest_not_quarantine, Bool.not_false, Bool.and_true]
          rw [hElig d]
          exact hdelig
        have hmax_filtered : maxByVersion
            (vs.filter (fun v => isEligible (patchFn (enforcePlan vs d) v) &&
              !isQuarantineTag (patchFn (enforcePlan vs d) v).tag)) = some d := by
          apply maxByVersion_sublist (l := candidates vs) ?_ hdin ?_ hcPV ?_
          · rw [candidates_eq_filter]; exact hsubC
          · exact hmax
          · rw [candidates_eq_filter]
            exact List.Nodup.sublist (List.Sublist.map _ (List.filter_sublist _)) hnd
        have hmax' : maxByVersion (candidates (vs.map (patchFn (enforcePlan vs d)))) =
            some (patchFn (enforcePlan vs d) d) := by
          rw [hCfilter, maxByVersion_map hPver, hmax_filtered]
          rfl
        have hhold' : holders (vs.map (patchFn (enforcePlan vs d))) =
            [patchFn (enforcePlan vs d) d] := by
          rw [holders_eq_filter, List.filter_map]
          have hcomp : vs.filter ((fun v => isEligible v && decide (v.tag = LATEST_TAG)) ∘
              patchFn (enforcePlan vs d)) =
              vs.filter (fun v => isEligible (patchFn (enforcePlan vs d) v) &&
                decide ((patchFn (enforcePlan vs d) v).tag = LATEST_TAG)) :=
            List.filter_congr (fun v _ => rfl)
          rw [hcomp]
          have : vs.filter (fun v => isEligible (patchFn (enforcePlan vs d) v) &&
              decide ((patchFn (enforcePlan vs d) v).tag = LATEST_TAG)) = [d] := by
            apply filter_eq_singleton_of_iff vs (List.Nodup.of_map _ hnd) hdmem
            intro v hv
            constructor
            · intro hp
              rw [Bool.and_eq_true, decide_eq_true_eq] at hp
              have := (htag_iff v hv).mp hp.2
              exact nodup_version_inj hnd hv hdmem this
            · intro hveq
              subst hveq
              rw [htag_d]
              simp only [decide_True, Bool.and_true]
              rw [hElig v]
              exact hdelig
          rw [this]
          rfl
        unfold enforce_latest_tag_invariants
        rw [hmax']
        exact if_pos hhold'
      rw [hstate]
      exact ⟨hSane', hGood', hconv⟩

/-! ### The rollback run preserves the latest-tag invariant -/

theorem patchFn_single (p : PatchCall) (v : VersionRec) :
    patchFn [p] v = if v.version = p.version then patchRec p v else v := by
  unfold patchFn
  by_cases hv : p.version = v.version
  · rw [List.find?_cons_of_pos _ (by simpa using hv), if_pos hv.symm]
  · rw [List.find?_cons_of_neg _ (by simpa using hv), if_neg (fun hh => hv hh.symm)]
    rfl

theorem patchFn_pair {p q : PatchCall} (_hpq : p.version ≠ q.version) (v : VersionRec) :
    patchFn [p, q] v =
      (if v.version = p.version then patchRec p v
       else if v.version = q.version then patchRec q v else v) := by
  unfold patchFn
  by_cases hv : p.version = v.version
  · rw [List.find?_cons_of_pos _ (by simpa using hv), if_pos hv.symm]
  · rw [List.find?_cons_of_neg _ (by simpa using hv), if_neg (fun hh => hv hh.symm)]
    by_cases hw : q.version = v.version
    · rw [List.find?_cons_of_pos _ (by simpa using hw), if_pos hw.symm]
    · rw [List.find?_cons_of_neg _ (by simpa using hw), if_neg (fun hh => hw hh.symm)]
      rfl

/-- The quarantine patch of handle_rollback_tagging. -/
def quarantinePatch (rb : String) (r : VersionRec) : PatchCall :=
  { version := r.version, tag := some ("quarantine-" ++ rb),
    set_properties := [(BACKUP_BEFORE_QUARANTINE, [r.tag])], delete_properties := [] }

theorem handle_rollback_eq (vs : List VersionRec) (rb : String) :
    handle_rollback_tagging vs rb =
      match (prodVersions vs).find? (fun v => v.version = rb) with
      | none => []
      | some r =>
        quarantinePatch rb r ::
          (if r.tag = LATEST_TAG then
            match pick_next_latest (prodVersions vs) rb with
            | some c => [promotePatch c]
            | none => []
          else []) := rfl

theorem patchRec_quarantine_self (rb : String) (r : VersionRec) :
    patchRec (quarantinePatch rb r) r =
      ⟨r.version, "quarantine-" ++ rb, r.release_status,
        patchProps r.properties (quarantinePatch rb r)⟩ := by
  unfold patchRec
  split_ifs with h
  · rfl
  · exact absurd rfl h

theorem restoreTagOf_quarantined (rb : String) (r v : VersionRec) :
    restoreTagOf
      ⟨v.version, "quarantine-" ++ rb, v.release_status,
        patchProps v.properties (quarantinePatch rb r)⟩ = restoreTagOf v := by
  unfold restoreTagOf
  have h := lookupProp_patch_other v.properties (quarantinePatch rb r) BACKUP_BEFORE_LATEST
    (by rfl)
    (by show ([BACKUP_BEFORE_QUARANTINE] : List String).contains BACKUP_BEFORE_LATEST = false
        decide)
  rw [show lookupProp (patchProps v.properties (quarantinePatch rb r)) BACKUP_BEFORE_LATEST =
    lookupProp v.properties BACKUP_BEFORE_LATEST from h]

/-- The candidate pool handed to pick_next_latest by handle_rollback_tagging. -/
def pickList (vs : List VersionRec) (rb : String) : List VersionRec :=
  (prodVersions vs).filter (fun v => v.version ≠ rb && !isQuarantineTag v.tag)

theorem pick_next_latest_eq (vs : List VersionRec) (rb : String) :
    pick_next_latest (prodVersions vs) rb = maxByVersion (pickList vs rb) := rfl

theorem rollback_preserve (vs : List VersionRec) (rb : String) (hs : Sane vs)
    (hg : GoodLatest vs) :
    Sane (rollbackState vs rb) ∧ GoodLatest (rollbackState vs rb) := by
  obtain ⟨hnd, hPV, hS3, hS4⟩ := hs
  obtain ⟨hg1, hg2⟩ := hg
  cases hfind : (prodVersions vs).find? (fun v => v.version = rb) with
  | none =>
    have hpcs : handle_rollback_tagging vs rb = [] := by
      rw [handle_rollback_eq, hfind]
    have hstate : rollbackState vs rb = vs := by
      unfold rollbackState; rw [hpcs]; rfl
    rw [hstate]
    exact ⟨⟨hnd, hPV, hS3, hS4⟩, hg1, hg2⟩
  | some r =>
    have hrv : r.version = rb := by simpa using List.find?_some hfind
    have hrprod : r ∈ prodVersions vs := List.mem_of_find?_eq_some hfind
    have hrmem : r ∈ vs := (List.mem_filter.mp hrprod).1
    have hrelig : isEligible r = true := (List.mem_filter.mp hrprod).2
    have hqtag : isQuarantineTag ("quarantine-" ++ rb) = true := isQuarantineTag_append rb
    have hqne : ("quarantine-" ++ rb : String) ≠ LATEST_TAG := quarantine_ne_latest hqtag
    -- shared analysis of the quarantine-only state
    have hfq : ∀ v ∈ vs, patchFn [quarantinePatch rb r] v =
        (if v.version = r.version then
          ⟨r.version, "quarantine-" ++ rb, r.release_status,
            patchProps r.properties (quarantinePatch rb r)⟩
         else v) := by
      intro v hv
      rw [patchFn_single]
      show (if v.version = r.version then patchRec (quarantinePatch rb r) v else v) = _
      by_cases hvr : v.version = r.version
      · have hveq : v = r := nodup_version_inj hnd hv hrmem hvr
        rw [if_pos hvr, if_pos hvr, hveq, patchRec_quarantine_self]
      · rw [if_neg hvr, if_neg hvr]
    have hSaneQ : Sane (vs.map (patchFn [quarantinePatch rb r])) := by
      refine ⟨?_, ?_, ?_, ?_⟩
      · rw [List.map_map]
        have hcmp : (fun x => x.version) ∘ patchFn [quarantinePatch rb r] =
            fun v : VersionRec => v.version := funext (fun v => patchFn_version _ v)
        rw [hcmp]
        exact hnd
      · intro v' hv'
        obtain ⟨v, hv, rfl⟩ := List.mem_map.mp hv'
        rw [patchFn_version]
        exact hPV v hv
      · intro v' hv'
        obtain ⟨v, hv, rfl⟩ := List.mem_map.mp hv'
        rw [hfq v hv]
        by_cases hvr : v.version = r.version
        · have hveq : v = r := nodup_version_inj hnd hv hrmem hvr
          rw [if_pos hvr, restoreTagOf_quarantined]
          exact hveq ▸ hS3 v hv
        · rw [if_neg hvr]
          exact hS3 v hv
      · intro v' hv' helig
        obtain ⟨v, hv, rfl⟩ := List.mem_map.mp hv'
        have helig' : isEligible v = false := by
          rw [show isEligible (patchFn [quarantinePatch rb r] v) = isEligible v from by
            unfold isEligible; rw [patchFn_status]] at helig
          exact helig
        have hvr : ¬ v.version = r.version := by
          intro hvr
          have hveq : v = r := nodup_version_inj hnd hv hrmem hvr
          rw [hveq, hrelig] at helig'
          exact absurd helig' (by simp)
        rw [hfq v hv, if_neg hvr]
        exact hS4 v hv helig'
    by_cases hrt : r.tag = LATEST_TAG
    · cases hpick : pick_next_latest (prodVersions vs) rb with
      | none =>
        have hpcs : handle_rollback_tagging vs rb = [quarantinePatch rb r] := by
          rw [handle_rollback_eq, hfind]
          simp [hrt, hpick]
        have hstate : rollbackState vs rb = vs.map (patchFn [quarantinePatch rb r]) := by
          unfold rollbackState
          rw [hpcs]
          exact applyPatches_find _ vs (by simp)
        have hnolatest : ∀ v ∈ vs, (patchFn [quarantinePatch rb r] v).tag ≠ LATEST_TAG := by
          intro v hv ht
          rw [hfq v hv] at ht
          by_cases hvr : v.version = r.version
          · rw [if_pos hvr] at ht
            exact hqne ht
          · rw [if_neg hvr] at ht
            have hveq : v = r := hg1 v hv r hrmem ht hrt
            exact hvr (by rw [hveq])
        rw [hstate]
        refine ⟨hSaneQ, ?_, ?_⟩
        · intro v' hv' w' hw' htv _
          obtain ⟨v, hv, rfl⟩ := List.mem_map.mp hv'
          exact absurd htv (hnolatest v hv)
        · intro v' hv' htv
          obtain ⟨v, hv, rfl⟩ := List.mem_map.mp hv'
          exact absurd htv (hnolatest v hv)
      | some c =>
        rw [pick_next_latest_eq] at hpick
        have hcpl : c ∈ pickList vs rb := maxByVersion_mem hpick
        have hplPV : ∀ v ∈ pickList vs rb, (SemVer.parse v.version).isSome = true := by
          intro v hv
          exact hPV v (List.mem_filter.mp (List.mem_filter.mp hv).1).1
        have hcbound : ∀ w ∈ pickList vs rb, 0 ≤ cmpStr c.version w.version :=
          maxBy_le_all hplPV hpick
        have hcprod : c ∈ prodVersions vs := (List.mem_filter.mp hcpl).1
        have hcmem : c ∈ vs := (List.mem_filter.mp hcprod).1
        have hcelig : isEligible c = true := (List.mem_filter.mp hcprod).2
        have hcside := (List.mem_filter.mp hcpl).2
        have hcrb : c.version ≠ rb := by
          rw [Bool.and_eq_true] at hcside
          simpa using hcside.1
        have hcnq : isQuarantineTag c.tag = false := by
          rw [Bool.and_eq_true] at hcside
          simpa using hcside.2
        have hcr : c.version ≠ r.version := by rw [hrv]; exact hcrb
        have hctag : c.tag ≠ LATEST_TAG := by
          intro hc
          have hceq : c = r := hg1 c hcmem r hrmem hc hrt
          exact hcr (by rw [hceq])
        have hpcs : handle_rollback_tagging vs rb =
            [quarantinePatch rb r, promotePatch c] := by
          rw [handle_rollback_eq, hfind]
          simp [hrt, pick_next_latest_eq, hpick]
        have hverne : (quarantinePatch rb r).version ≠ (promotePatch c).version := by
          show r.version ≠ c.version
          exact fun hh => hcr hh.symm
        have hstate : rollbackState vs rb =
            vs.map (patchFn [quarantinePatch rb r, promotePatch c]) := by
          unfold rollbackState
          rw [hpcs]
          refine applyPatches_find _ vs ?_
          simp only [List.map_cons, List.map_nil]
          exact List.nodup_cons.mpr ⟨by simpa using hverne, List.nodup_singleton _⟩
        have hf2 : ∀ v ∈ vs, patchFn [quarantinePatch rb r, promotePatch c] v =
            (if v.version = r.version then
              ⟨r.version, "quarantine-" ++ rb, r.release_status,
                patchProps r.properties (quarantinePatch rb r)⟩
             else if v.version = c.version then
              ⟨c.version, LATEST_TAG, c.release_status,
                patchProps c.properties (promotePatch c)⟩
             else v) := by
          intro v hv
          rw [patchFn_pair hverne]
          show (if v.version = r.version then patchRec (quarantinePatch rb r) v
            else if v.version = c.version then patchRec (promotePatch c) v else v) = _
          by_cases hvr : v.version = r.version
          · have hveq : v = r := nodup_version_inj hnd hv hrmem hvr
            rw [if_pos hvr, if_pos hvr, hveq, patchRec_quarantine_self]
          · rw [if_neg hvr, if_neg hvr]
            by_cases hvc : v.version = c.version
            · have hveq : v = c := nodup_version_inj hnd hv hcmem hvc
              rw [if_pos hvc, if_pos hvc, hveq, patchRec_promote_self]
            · rw [if_neg hvc, if_neg hvc]
        have htag2 : ∀ v ∈ vs,
            ((patchFn [quarantinePatch rb r, promotePatch c] v).tag = LATEST_TAG ↔
              v.version = c.version) := by
          intro v hv
          rw [hf2 v hv]
          by_cases hvr : v.version = r.version
          · rw [if_pos hvr]
            constructor
            · intro ht
              exact absurd ht hqne
            · intro hvc
              exact absurd (hvr.symm.trans hvc) (fun hh => hcr hh.symm)
          · rw [if_neg hvr]
            by_cases hvc : v.version = c.version
            · rw [if_pos hvc]
              simp [hvc]
            · rw [if_neg hvc]
              constructor
              · intro ht
                have hveq : v = r := hg1 v hv r hrmem ht hrt
                exact absurd (by rw [hveq]) hvr
              · intro hh
                exact absurd hh hvc
        rw [hstate]
        refine ⟨⟨?_, ?_, ?_, ?_⟩, ?_, ?_⟩
        · rw [List.map_map]
          have hcmp : (fun x => x.version) ∘ patchFn [quarantinePatch rb r, promotePatch c] =
              fun v : VersionRec => v.version := funext (fun v => patchFn_version _ v)
          rw [hcmp]
          exact hnd
        · intro v' hv'
          obtain ⟨v, hv, rfl⟩ := List.mem_map.mp hv'
          rw [patchFn_version]
          exact hPV v hv
        · intro v' hv'
          obtain ⟨v, hv, rfl⟩ := List.mem_map.mp hv'
          rw [hf2 v hv]
          by_cases hvr : v.version = r.version
          · have hveq : v = r := nodup_version_inj hnd hv hrmem hvr
            rw [if_pos hvr, restoreTagOf_quarantined]
            exact hveq ▸ hS3 v hv
          · rw [if_neg hvr]
            by_cases hvc : v.version = c.version
            · rw [if_pos hvc, restoreTagOf_promoted]
              exact hctag
            · rw [if_neg hvc]
              exact hS3 v hv
        · intro v' hv' helig
          obtain ⟨v, hv, rfl⟩ := List.mem_map.mp hv'
          have helig' : isEligible v = false := by
            rw [show isEligible (patchFn [quarantinePatch rb r, promotePatch c] v) =
                isEligible v from by unfold isEligible; rw [patchFn_status]] at helig
            exact helig
          have hvr : ¬ v.version = r.version := by
            intro hvr
            have hveq : v = r := nodup_version_inj hnd hv hrmem hvr
            rw [hveq, hrelig] at helig'
            exact absurd helig' (by simp)
          have hvc : ¬ v.version = c.version := by
            intro hvc
            have hveq : v = c := nodup_version_inj hnd hv hcmem hvc
            rw [hveq, hcelig] at helig'
            exact absurd helig' (by simp)
          rw [hf2 v hv, if_neg hvr, if_neg hvc]
          exact hS4 v hv helig'
        · intro v' hv' w' hw' htv htw
          obtain ⟨v, hv, rfl⟩ := List.mem_map.mp hv'
          obtain ⟨w, hw, rfl⟩ := List.mem_map.mp hw'
          have h1 := (htag2 v hv).mp htv
          have h2 := (htag2 w hw).mp htw
          have : v = w := nodup_version_inj hnd hv hw (by rw [h1, h2])
          rw [this]
        · intro v' hv' htv
          obtain ⟨v, hv, rfl⟩ := List.mem_map.mp hv'
          have h1 := (htag2 v hv).mp htv
          have hveq : v = c := nodup_version_inj hnd hv hcmem h1
          constructor
          · refine mem_candidates_iff.mpr ⟨List.mem_map_of_mem _ hv, ?_, ?_⟩
            · rw [show isEligible (patchFn [quarantinePatch rb r, promotePatch c] v) =
                isEligible v from by unfold isEligible; rw [patchFn_status]]
              rw [hveq]
              exact hcelig
            · rw [htv]
              exact latest_not_quarantine
          · intro w' hw'
            obtain ⟨hw'mem, hw'e, hw'q⟩ := mem_candidates_iff.mp hw'
            obtain ⟨w, hw, rfl⟩ := List.mem_map.mp hw'mem
            rw [patchFn_version, patchFn_version, hveq]
            have hwe : isEligible w = true := by
              rw [show isEligible (patchFn [quarantinePatch rb r, promotePatch c] w) =
                isEligible w from by unfold isEligible; rw [patchFn_status]] at hw'e
              exact hw'e
            by_cases hwr : w.version = r.version
            · exfalso
              rw [hf2 w hw, if_pos hwr] at hw'q
              rw [hqtag] at hw'q
              exact absurd hw'q (by simp)
            · by_cases hwc : w.version = c.version
              · rw [hwc, cmpStr_refl (hPV c hcmem)]
              · have hwq : isQuarantineTag w.tag = false := by
                  rw [hf2 w hw, if_neg hwr, if_neg hwc] at hw'q
                  exact hw'q
                have hwpl : w ∈ pickList vs rb := by
                  unfold pickList
                  rw [List.mem_filter]
                  refine ⟨?_, ?_⟩
                  · unfold prodVersions
                    rw [List.mem_filter]
                    exact ⟨hw, hwe⟩
                  · rw [Bool.and_eq_true]
                    constructor
                    · simpa using (fun hh : w.version = rb => hwr (by rw [hh, hrv]))
                    · simpa using hwq
                exact hcbound w hwpl
    · -- the rolled-back version did not hold latest: quarantine only
      have hpcs : handle_rollback_tagging vs rb = [quarantinePatch rb r] := by
        rw [handle_rollback_eq, hfind]
        simp [hrt]
      have hstate : rollbackState vs rb = vs.map (patchFn [quarantinePatch rb r]) := by
        unfold rollbackState
        rw [hpcs]
        exact applyPatches_find _ vs (by simp)
      have htagQ : ∀ v ∈ vs,
          ((patchFn [quarantinePatch rb r] v).tag = LATEST_TAG ↔
            (v.tag = LATEST_TAG ∧ ¬ v.version = r.version)) := by
        intro v hv
        rw [hfq v hv]
        by_cases hvr : v.version = r.version
        · rw [if_pos hvr]
          constructor
          · intro ht
            exact absurd ht hqne
          · intro ⟨_, hne⟩
            exact absurd hvr hne
        · rw [if_neg hvr]
          exact ⟨fun ht => ⟨ht, hvr⟩, fun ⟨ht, _⟩ => ht⟩
      rw [hstate]
      refine ⟨hSaneQ, ?_, ?_⟩
      · intro v' hv' w' hw' htv htw
        obtain ⟨v, hv, rfl⟩ := List.mem_map.mp hv'
        obtain ⟨w, hw, rfl⟩ := List.mem_map.mp hw'
        obtain ⟨htv', _⟩ := (htagQ v hv).mp htv
        obtain ⟨htw', _⟩ := (htagQ w hw).mp htw
        rw [hg1 v hv w hw htv' htw']
      · intro v' hv' htv
        obtain ⟨v, hv, rfl⟩ := List.mem_map.mp hv'
        obtain ⟨htv', hvr⟩ := (htagQ v hv).mp htv
        obtain ⟨hvc, hvbound⟩ := hg2 v hv htv'
        obtain ⟨_, hve, hvq⟩ := mem_candidates_iff.mp hvc
        have hfv : patchFn [quarantinePatch rb r] v = v := by
          rw [hfq v hv, if_neg hvr]
        constructor
        · refine mem_candidates_iff.mpr ⟨List.mem_map_of_mem _ hv, ?_, ?_⟩
          · rw [hfv]; exact hve
          · rw [hfv]; exact hvq
        · intro w' hw'
          obtain ⟨hw'mem, hw'e, hw'q⟩ := mem_candidates_iff.mp hw'
          obtain ⟨w, hw, rfl⟩ := List.mem_map.mp hw'mem
          rw [patchFn_version, patchFn_version]
          by_cases hwr : w.version = r.version
          · exfalso
            rw [hfq w hw, if_pos hwr, hqtag] at hw'q
            exact absurd hw'q (by simp)
          · have hfw : patchFn [quarantinePatch rb r] w = w := by
              rw [hfq w hw, if_neg hwr]
            rw [hfw] at hw'e hw'q
            have hwc : w ∈ candidates vs := mem_candidates_iff.mpr ⟨hw, hw'e, hw'q⟩
            exact hvbound w hwc

/-! ## Claim theorems: the tag reconciliation engine (C1-C5) -/

/-- The `enforce_latest_tag_invariants` test fixture of
src/tests/test_tagging_logic.py (test_enforce_latest_tag_invariants_basic). -/
def enforceDemo : List VersionRec :=
  [⟨"2.1.0", "version", "RELEASED", []⟩,
   ⟨"2.0.0", "latest", "RELEASED", []⟩,
   ⟨"1.9.0", "stable", "RELEASED", []⟩]

/-- The `handle_rollback_tagging` test fixture
(test_rollback_tagging_with_latest / without_latest). -/
def rollbackDemo : List VersionRec :=
  [⟨"2.0.0", "latest", "RELEASED", []⟩,
   ⟨"1.9.0", "stable", "RELEASED", []⟩,
   ⟨"1.8.0", "version", "RELEASED", []⟩]

/-- The `pick_next_latest` no-candidate test fixture
(test_pick_next_latest_no_candidates). -/
def pickDemoNone : List VersionRec :=
  [⟨"2.0.0", "latest", "RELEASED", []⟩,
   ⟨"1.5.0", "quarantine-1.5.0", "RELEASED", []⟩]

/-- C1: after a completed run of `enforce_latest_tag_invariants` on a sane
Registry state, at most one version carries the `latest` tag and the carrier
is a highest SemVer-ordered production-eligible version that is not
quarantined (the two invariants bundled in `GoodLatest`); and every state
reachable from there by repeated engine runs — reconciliations and rollbacks
in any order — preserves sanity and both invariants. -/
theorem C1_reachable_invariant (vs : List VersionRec) (hs : Sane vs) :
    (Sane (enforceState vs) ∧ GoodLatest (enforceState vs)) ∧
    ∀ ws, Relation.ReflTransGen EngineStep (enforceState vs) ws →
      Sane ws ∧ GoodLatest ws := by
  have h0 := enforce_establish vs hs
  refine ⟨⟨h0.1, h0.2.1⟩, ?_⟩
  intro ws hreach
  induction hreach with
  | refl => exact ⟨h0.1, h0.2.1⟩
  | tail _ step ih =>
    cases step with
    | enforce => exact ⟨(enforce_establish _ ih.1).1, (enforce_establish _ ih.1).2.1⟩
    | rollback rb => exact rollback_preserve _ rb ih.1 ih.2

/-- C1 witness: the invariant state reached from the concrete test fixture. -/
theorem C1_reachable_invariant_witness :
    Sane (enforceState enforceDemo) ∧ GoodLatest (enforceState enforceDemo) :=
  (C1_reachable_invariant enforceDemo (by unfold Sane; decide)).2
    (enforceState enforceDemo) Relation.ReflTransGen.refl

/-- C2: when a single version `h` holds `latest` but the highest
production-eligible non-quarantined version `d` is a different one,
`enforce_latest_tag_invariants` issues exactly two patch calls, in order:
first the promotion of `d` to `latest` with its previous tag stored as a
single-element list under `BACKUP_BEFORE_LATEST`, then the restoration of
`h` to its backed-up tag — the literal `version` when no backup property is
present — with deletion of the backup property. -/
theorem C2_two_patches (vs : List VersionRec) (d h : VersionRec)
    (hmax : maxByVersion (candidates vs) = some d)
    (hhold : holders vs = [h]) (hne : h.version ≠ d.version) :
    enforce_latest_tag_invariants vs =
      [{ version := d.version, tag := some LATEST_TAG,
         set_properties := [(BACKUP_BEFORE_LATEST, [d.tag])], delete_properties := [] },
       { version := h.version, tag := some (restoreTagOf h),
         set_properties := [], delete_properties := [BACKUP_BEFORE_LATEST] }] ∧
    (∀ t ts, lookupProp h.properties BACKUP_BEFORE_LATEST = some (t :: ts) →
      restoreTagOf h = t) ∧
    (lookupProp h.properties BACKUP_BEFORE_LATEST = none →
      restoreTagOf h = "version") := by
  have hd : d ∈ candidates vs := maxByVersion_mem hmax
  have hdc := mem_candidates_iff.mp hd
  have hdtag : ¬ d.tag = LATEST_TAG := by
    intro hL
    have hdh : d ∈ holders vs := mem_holders_iff.mpr ⟨hdc.1, hdc.2.1, hL⟩
    rw [hhold, List.mem_singleton] at hdh
    exact hne (congrArg VersionRec.version hdh.symm)
  refine ⟨?_, ?_, ?_⟩
  · have he : enforce_latest_tag_invariants vs =
        if holders vs = [d] then [] else enforcePlan vs d := by
      unfold enforce_latest_tag_invariants
      rw [hmax]
    rw [he]
    rw [if_neg (fun hc => by
      rw [hhold] at hc
      injection hc with h1
      exact hne (congrArg VersionRec.version h1))]
    unfold enforcePlan
    rw [if_neg hdtag]
    have hoth : otherHolders vs d = [h] := by
      unfold otherHolders
      rw [hhold]
      simp [hne]
    rw [hoth]
    rfl
  · intro t ts hlk
    unfold restoreTagOf
    rw [hlk]
  · intro hlk
    unfold restoreTagOf
    rw [hlk]

/-- C2 witness: the exact two patches on the test fixture. -/
theorem C2_two_patches_witness :
    enforce_latest_tag_invariants enforceDemo =
      [{ version := "2.1.0", tag := some LATEST_TAG,
         set_properties := [(BACKUP_BEFORE_LATEST, ["version"])],
         delete_properties := [] },
       { version := "2.0.0", tag := some "version",
         set_properties := [], delete_properties := [BACKUP_BEFORE_LATEST] }] :=
  (C2_two_patches enforceDemo ⟨"2.1.0", "version", "RELEASED", []⟩
    ⟨"2.0.0", "latest", "RELEASED", []⟩ (by decide) (by decide) (by decide)).1

/-- C3: `enforce_latest_tag_invariants` is idempotent: a run on the state just
produced by a completed run issues zero patches (for any sane starting state);
a run on a state with no production-eligible versions issues zero patches; and
a run on a state whose highest candidate already is the sole `latest` holder
issues zero patches. -/
theorem C3_idempotent (vs : List VersionRec) (hs : Sane vs) :
    enforce_latest_tag_invariants (enforceState vs) = [] ∧
    (prodVersions vs = [] → enforce_latest_tag_invariants vs = []) ∧
    (∀ d, maxByVersion (candidates vs) = some d → holders vs = [d] →
      enforce_latest_tag_invariants vs = []) := by
  refine ⟨(enforce_establish vs hs).2.2, ?_, ?_⟩
  · intro hpe
    unfold enforce_latest_tag_invariants
    have hc : candidates vs = [] := by
      unfold candidates
      rw [hpe]
      rfl
    rw [hc]
    rfl
  · intro d hmax hhold
    have he : enforce_latest_tag_invariants vs =
        if holders vs = [d] then [] else enforcePlan vs d := by
      unfold enforce_latest_tag_invariants
      rw [hmax]
    rw [he, if_pos hhold]

/-- C3 witness: the second run on the test fixture issues zero patches. -/
theorem C3_idempotent_witness :
    enforce_latest_tag_invariants (enforceState enforceDemo) = [] :=
  (C3_idempotent enforceDemo (by unfold Sane; decide)).1

/-- C4: when the rolled-back version is present among the production
versions, `handle_rollback_tagging` always issues the quarantine patch first —
tag set to exactly `quarantine-<rolled_back_version>`, previous tag stored as
a single-element list under `BACKUP_BEFORE_QUARANTINE` — and issues a second
patch, promoting the `pick_next_latest` candidate to `latest` with a
`BACKUP_BEFORE_LATEST` backup of its prior tag, exactly when the rolled-back
version held `latest` and such a candidate exists; otherwise the quarantine
patch is the only patch issued. -/
theorem C4_rollback_patches (vs : List VersionRec) (r : VersionRec) (rb : String)
    (hfind : (prodVersions vs).find? (fun v => v.version = rb) = some r) :
    (handle_rollback_tagging vs rb).head? = some
      { version := r.version, tag := some ("quarantine-" ++ rb),
        set_properties := [(BACKUP_BEFORE_QUARANTINE, [r.tag])],
        delete_properties := [] } ∧
    (r.tag ≠ LATEST_TAG → handle_rollback_tagging vs rb =
      [{ version := r.version, tag := some ("quarantine-" ++ rb),
         set_properties := [(BACKUP_BEFORE_QUARANTINE, [r.tag])],
         delete_properties := [] }]) ∧
    (∀ c, r.tag = LATEST_TAG → pick_next_latest (prodVersions vs) rb = some c →
      handle_rollback_tagging vs rb =
      [{ version := r.version, tag := some ("quarantine-" ++ rb),
         set_properties := [(BACKUP_BEFORE_QUARANTINE, [r.tag])],
         delete_properties := [] },
       { version := c.version, tag := some LATEST_TAG,
         set_properties := [(BACKUP_BEFORE_LATEST, [c.tag])],
         delete_properties := [] }]) ∧
    (r.tag = LATEST_TAG → pick_next_latest (prodVersions vs) rb = none →
      handle_rollback_tagging vs rb =
      [{ version := r.version, tag := some ("quarantine-" ++ rb),
         set_properties := [(BACKUP_BEFORE_QUARANTINE, [r.tag])],
         delete_properties := [] }]) := by
  have hh : handle_rollback_tagging vs rb =
      quarantinePatch rb r ::
        (if r.tag = LATEST_TAG then
           match pick_next_latest (prodVersions vs) rb with
           | some c => [promotePatch c]
           | none => []
         else []) := by
    rw [handle_rollback_eq, hfind]
  refine ⟨?_, ?_, ?_, ?_⟩
  · rw [hh]
    rfl
  · intro hrt
    rw [hh, if_neg hrt]
    rfl
  · intro c hrt hpick
    rw [hh, if_pos hrt, hpick]
    rfl
  · intro hrt hpick
    rw [hh, if_pos hrt, hpick]
    rfl

/-- C4 witness: the two rollback test scenarios — rolled-back holder of
`latest` yields quarantine then promotion of `1.9.0`; rolled-back non-holder
yields the quarantine patch only. -/
theorem C4_rollback_patches_witness :
    handle_rollback_tagging rollbackDemo "2.0.0" =
      [{ version := "2.0.0", tag := some "quarantine-2.0.0",
         set_properties := [(BACKUP_BEFORE_QUARANTINE, ["latest"])],
         delete_properties := [] },
       { version := "1.9.0", tag := some "latest",
         set_properties := [(BACKUP_BEFORE_LATEST, ["stable"])],
         delete_properties := [] }] ∧
    handle_rollback_tagging rollbackDemo "1.9.0" =
      [{ version := "1.9.0", tag := some "quarantine-1.9.0",
         set_properties := [(BACKUP_BEFORE_QUARANTINE, ["stable"])],
         delete_properties := [] }] :=
  ⟨(C4_rollback_patches rollbackDemo ⟨"2.0.0", "latest", "RELEASED", []⟩ "2.0.0"
      (by decide)).2.2.1 ⟨"1.9.0", "stable", "RELEASED", []⟩ (by decide) (by decide),
   (C4_rollback_patches rollbackDemo ⟨"1.9.0", "stable", "RELEASED", []⟩ "1.9.0"
      (by decide)).2.1 (by decide)⟩

/-- C5: over production versions with parseable version strings,
`pick_next_latest` returns none exactly when every version is the excluded
one or quarantined, and otherwise returns an element of the input that is
neither excluded nor quarantined and is highest in SemVer order among all
such elements.  (Purity is inherent in the embedding: it is a function of
its arguments producing no patch calls.) -/
theorem C5_pick_next_latest (pvs : List VersionRec) (ex : String)
    (hPV : ∀ v ∈ pvs, (SemVer.parse v.version).isSome = true) :
    (pick_next_latest pvs ex = none ↔
      pvs.filter (fun v => v.version ≠ ex && !isQuarantineTag v.tag) = []) ∧
    (∀ m, pick_next_latest pvs ex = some m →
      m ∈ pvs ∧ m.version ≠ ex ∧ isQuarantineTag m.tag = false ∧
      ∀ w ∈ pvs, w.version ≠ ex → isQuarantineTag w.tag = false →
        0 ≤ cmpStr m.version w.version) := by
  constructor
  · unfold pick_next_latest
    exact maxByVersion_none_iff
  · intro m hm
    unfold pick_next_latest at hm
    have hmem := maxByVersion_mem hm
    rw [List.mem_filter] at hmem
    obtain ⟨hmv, hcond⟩ := hmem
    rw [Bool.and_eq_true] at hcond
    have h1 : m.version ≠ ex := by simpa using hcond.1
    have h2 : isQuarantineTag m.tag = false := by simpa using hcond.2
    refine ⟨hmv, h1, h2, ?_⟩
    intro w hw hw1 hw2
    have hall : ∀ v ∈ pvs.filter (fun v => v.version ≠ ex && !isQuarantineTag v.tag),
        (SemVer.parse v.version).isSome = true :=
      fun v hv => hPV v (List.mem_filter.mp hv).1
    exact maxBy_le_all hall hm w
      (List.mem_filter.mpr ⟨hw, by simp [hw1, hw2]⟩)

/-- C5 witness: the no-candidate test fixture, where the only non-excluded
version is quarantined. -/
theorem C5_pick_next_latest_witness :
    pick_next_latest pickDemoNone "2.0.0" = none ↔
      pickDemoNone.filter
        (fun v => v.version ≠ "2.0.0" && !isQuarantineTag v.tag) = [] :=
  (C5_pick_next_latest pickDemoNone "2.0.0" (by decide)).1

/-! ## Claim theorems: comparator, sorting, parsing, manifest (C6, C7, C9, C10) -/

/-- C6: `compare_semver` is a three-valued comparison (-1, 0 or 1) agreeing
with SemVer 2.0.0 precedence as restated by the spec: major, minor and patch
numerically, a version without prerelease above an otherwise-equal one with a
prerelease, prerelease identifier lists left to right with numeric
identifiers numeric, alphanumeric identifiers ASCII-lexical, numeric below
alphanumeric, and a proper prefix lesser; in particular
compare(1.0.0, 1.0.1) = -1 and compare(1.0.0-alpha, 1.0.0) = -1. -/
theorem C6_compare_semver_spec :
    (∀ a b : SemVer, compare_semver a b = specSemVerCompare a b) ∧
    (∀ a b : SemVer,
      compare_semver a b = -1 ∨ compare_semver a b = 0 ∨ compare_semver a b = 1) ∧
    (SemVer.parse "1.0.0").bind
        (fun a => (SemVer.parse "1.0.1").map (fun b => compare_semver a b)) =
      some (-1) ∧
    (SemVer.parse "1.0.0-alpha").bind
        (fun a => (SemVer.parse "1.0.0").map (fun b => compare_semver a b)) =
      some (-1) :=
  ⟨compare_semver_eq_spec, cs_range, by decide, by decide⟩

/-- C7: `sort_versions_by_semver_desc` returns exactly the parseable input
tokens (unparseable strings silently dropped, no failure possible), in
descending SemVer order, stably — elements of equal SemVer rank keep their
input order — and on the documented example input it returns the documented
output. -/
theorem C7_sort_desc_stable :
    (∀ l : List String,
      (sort_versions_by_semver_desc l).Perm
        (l.filter (fun v => (SemVer.parse v).isSome))) ∧
    (∀ l : List String, (sort_versions_by_semver_desc l).Pairwise strGE) ∧
    (∀ (l : List String) (z : String),
      (sort_versions_by_semver_desc l).filter (sameRank z) =
        (l.filter (fun v => (SemVer.parse v).isSome)).filter (sameRank z)) ∧
    sort_versions_by_semver_desc ["1.0.0", "2.1.0", "1.5.3", "2.0.0", "1.10.0"] =
      ["2.1.0", "2.0.0", "1.10.0", "1.5.3", "1.0.0"] ∧
    sort_versions_by_semver_desc ["2.0.0", "not-a-version", "1.0.0"] =
      ["2.0.0", "1.0.0"] :=
  ⟨sortVersions_perm, sortVersions_pairwise, sortVersions_stable, by decide, by decide⟩

/-- A state whose highest production-eligible version is quarantined (and has
a mixed-case release status). -/
def quarantinedDemo : List VersionRec :=
  [⟨"2.0.0", "quarantine-2.0.0", "Released", []⟩,
   ⟨"1.9.0", "latest", "RELEASED", []⟩,
   ⟨"1.5.0", "stable", "DEV", []⟩]

/-- The head of the descending sort is maximal: when every string of the list
parses, the first sorted element is a member of the list and SemVer-above
every element of the list. -/
theorem sortVersions_head {l : List String} {m : String}
    (hl : ∀ x ∈ l, (SemVer.parse x).isSome = true)
    (h : (sort_versions_by_semver_desc l).head? = some m) :
    m ∈ l ∧ ∀ x ∈ l, 0 ≤ cmpStr m x := by
  have hfl : l.filter (fun s => (SemVer.parse s).isSome) = l :=
    List.filter_eq_self.mpr (fun x hx => by simp [hl x hx])
  have hperm := sortVersions_perm l
  rw [hfl] at hperm
  obtain ⟨tail, hsort⟩ : ∃ tail, sort_versions_by_semver_desc l = m :: tail := by
    cases hs : sort_versions_by_semver_desc l with
    | nil => rw [hs] at h; exact absurd h (by simp)
    | cons a t =>
      rw [hs] at h
      simp only [List.head?_cons, Option.some.injEq] at h
      exact ⟨t, by rw [← h]⟩
  have hpw := sortVersions_pairwise l
  rw [hsort] at hpw hperm
  have hmm : m ∈ l := hperm.mem_iff.mp (List.mem_cons_self m tail)
  refine ⟨hmm, ?_⟩
  intro x hx
  have hx' : x ∈ m :: tail := hperm.mem_iff.mpr hx
  rcases List.mem_cons.mp hx' with rfl | hxt
  · rw [cmpStr_refl (hl x hx)]
  · obtain ⟨a, b, ha, hb, hab⟩ := (List.pairwise_cons.mp hpw).1 x hxt
    rw [cmpStr_eq ha hb]
    exact hab

/-- C10: `pick_latest_prod_version` never inspects the tag field — retagging
every record arbitrarily leaves its result unchanged — it returns none when no
version has a production release status, and over parseable version strings it
selects exactly the highest production-eligible version: any returned version
is the version of a production-eligible record and SemVer-above the version of
every production-eligible record, and some version is returned whenever a
production-eligible record exists; hence a quarantine-tagged highest eligible
version is still returned, as on the concrete state `quarantinedDemo`. -/
theorem C10_pick_latest_ignores_tag (vs : List VersionRec) :
    (∀ g : VersionRec → String,
      pick_latest_prod_version (vs.map (fun v => { v with tag := g v })) =
        pick_latest_prod_version vs) ∧
    (vs.filter isProdStatus = [] → pick_latest_prod_version vs = none) ∧
    ((∀ v ∈ vs, isProdStatus v = true → (SemVer.parse v.version).isSome = true) →
      (∀ m, pick_latest_prod_version vs = some m →
        (∃ v ∈ vs, isProdStatus v = true ∧ v.version = m) ∧
        ∀ w ∈ vs, isProdStatus w = true → 0 ≤ cmpStr m w.version) ∧
      (vs.filter isProdStatus ≠ [] → ∃ m, pick_latest_prod_version vs = some m)) ∧
    pick_latest_prod_version quarantinedDemo = some "2.0.0" := by
  refine ⟨?_, ?_, ?_, by decide⟩
  · intro g
    have hver : ((vs.map (fun v => { v with tag := g v })).filter isProdStatus).map
          (·.version) = (vs.filter isProdStatus).map (·.version) := by
      rw [List.filter_map, List.map_map]
      have hf : vs.filter (isProdStatus ∘ (fun v => { v with tag := g v })) =
          vs.filter isProdStatus := List.filter_congr (fun v _ => rfl)
      rw [hf]
      exact List.map_congr_left (fun v _ => rfl)
    unfold pick_latest_prod_version
    rw [hver]
  · intro hpe
    unfold pick_latest_prod_version
    rw [hpe]
    rfl
  · intro hPV
    have hPV' : ∀ x ∈ (vs.filter isProdStatus).map (fun v => v.version),
        (SemVer.parse x).isSome = true := by
      intro x hx
      obtain ⟨v, hv, rfl⟩ := List.mem_map.mp hx
      have hv' := List.mem_filter.mp hv
      exact hPV v hv'.1 hv'.2
    have hne0 : ∀ x ∈ (vs.filter isProdStatus).map (fun v => v.version), x ≠ "" := by
      intro x hx h0
      have hp := hPV' x hx
      rw [h0] at hp
      exact absurd hp (by decide)
    have hprodeq : ((vs.filter isProdStatus).map (fun v => v.version)).filter
        (fun s => s ≠ "") = (vs.filter isProdStatus).map (fun v => v.version) :=
      List.filter_eq_self.mpr (fun x hx => by simp [hne0 x hx])
    constructor
    · intro m hm
      simp only [pick_latest_prod_version] at hm
      rw [hprodeq] at hm
      by_cases hemp : (((vs.filter isProdStatus).map (fun v => v.version)).isEmpty) = true
      · rw [if_pos hemp] at hm
        exact absurd hm (by simp)
      · rw [if_neg hemp] at hm
        obtain ⟨hmem, hge⟩ := sortVersions_head hPV' hm
        constructor
        · obtain ⟨v, hv, hveq⟩ := List.mem_map.mp hmem
          have hv' := List.mem_filter.mp hv
          exact ⟨v, hv'.1, hv'.2, hveq⟩
        · intro w hw hwp
          exact hge w.version (List.mem_map_of_mem _ (List.mem_filter.mpr ⟨hw, hwp⟩))
    · intro hnil
      simp only [pick_latest_prod_version]
      rw [hprodeq]
      have hLne : ((vs.filter isProdStatus).map (fun v => v.version)) ≠ [] := by
        intro h0
        exact hnil (List.map_eq_nil_iff.mp h0)
      rw [if_neg (by simpa using hLne)]
      have hfl : ((vs.filter isProdStatus).map (fun v => v.version)).filter
          (fun s => (SemVer.parse s).isSome) =
          (vs.filter isProdStatus).map (fun v => v.version) :=
        List.filter_eq_self.mpr (fun x hx => by simp [hPV' x hx])
      have hperm := sortVersions_perm ((vs.filter isProdStatus).map (fun v => v.version))
      rw [hfl] at hperm
      cases hs : sort_versions_by_semver_desc
          ((vs.filter isProdStatus).map (fun v => v.version)) with
      | nil =>
        rw [hs] at hperm
        exact absurd (List.Perm.eq_nil hperm.symm) hLne
      | cons a t => exact ⟨a, rfl⟩

/-- C10 witness: a list with no production-eligible version yields none. -/
theorem C10_pick_latest_ignores_tag_witness :
    pick_latest_prod_version [⟨"1.0.0", "latest", "DEV", []⟩] = none :=
  (C10_pick_latest_ignores_tag [⟨"1.0.0", "latest", "DEV", []⟩]).2.1 (by decide)

/-- C9 counterexample: on source stage PROD, an application entry without the
`apptrust_application` key makes `build_manifest` raise (modelled as
`Except.error`) instead of producing a manifest with one applications entry
per input application, refuting the claim's unconditional success on PROD. -/
theorem C9_counterexample :
    build_manifest [⟨none, some "1.0.0", none⟩]
      (fun _ _ => (("" : String), ("" : String))) "PROD" ⟨2026, 10, 12, 0, 0, 0, 0⟩ =
      .error "Application entry missing required fields" := by
  rfl

/-- C9: `build_manifest` rejects any source stage other than PROD with an
error; on PROD it raises an error whenever some entry lacks a nonempty
application key or resolves to an empty version; and on PROD with every entry
carrying a nonempty application key and a nonempty version it returns the
manifest document: CalVer timestamp-derived `version`, ISO-8601 UTC
`created_at`, the `source_stage`, one `{application_key, version, sources,
releasables}` entry per input application, the `provenance.evidence_minimums`
block and the fixed notes text. -/
theorem C9_build_manifest {J : Type} (applications : List AppEntry)
    (gvc : String → String → J × J) (stage : String) (now : Timestamp) :
    (stage ≠ "PROD" → build_manifest applications gvc stage now =
      .error "Platform aggregation demo only supports source_stage=PROD") ∧
    (stage = "PROD" →
      (∃ e ∈ applications, ∀ k, e.apptrust_application = some k →
        k = "" ∨ appEntryVersion e = "") →
      build_manifest applications gvc stage now =
        .error "Application entry missing required fields") ∧
    (stage = "PROD" →
      (∀ e ∈ applications, ∃ k, e.apptrust_application = some k ∧ k ≠ "" ∧
        appEntryVersion e ≠ "") →
      build_manifest applications gvc stage now =
        .ok { version := calverOf now,
              created_at := isoOf now,
              source_stage := stage,
              applications := applications.map (fun e =>
                { application_key := e.apptrust_application.getD "",
                  version := appEntryVersion e,
                  sources := (gvc (e.apptrust_application.getD "")
                    (appEntryVersion e)).1,
                  releasables := (gvc (e.apptrust_application.getD "")
                    (appEntryVersion e)).2 }),
              evidence_minimums := ⟨true⟩,
              notes := "Auto-generated by platform-aggregator (applications & versions)" }) := by
  have hfe : ∀ e : AppEntry,
      (∀ k, e.apptrust_application = some k → k = "" ∨ appEntryVersion e = "") →
      (match e.apptrust_application with
       | none => (Except.error "Application entry missing required fields" :
           Except String (ManifestApp J))
       | some app_key =>
         if app_key = "" ∨ appEntryVersion e = "" then
           Except.error "Application entry missing required fields"
         else
           Except.ok ⟨app_key, appEntryVersion e,
             (gvc app_key (appEntryVersion e)).1,
             (gvc app_key (appEntryVersion e)).2⟩) =
        Except.error "Application entry missing required fields" := by
    intro e hbad
    cases hk : e.apptrust_application with
    | none => rfl
    | some k =>
      show (if k = "" ∨ appEntryVersion e = "" then
          (Except.error "Application entry missing required fields" :
            Except String (ManifestApp J))
        else Except.ok ⟨k, appEntryVersion e, (gvc k (appEntryVersion e)).1,
          (gvc k (appEntryVersion e)).2⟩) =
        Except.error "Application entry missing required fields"
      rw [if_pos (hbad k hk)]
  refine ⟨?_, ?_, ?_⟩
  · intro hne
    unfold build_manifest
    rw [if_pos hne]
  · intro hstage hbad
    unfold build_manifest
    rw [if_neg (fun hc => hc hstage)]
    have hmapMerr : ∀ es : List AppEntry,
        (∃ e ∈ es, ∀ k, e.apptrust_application = some k →
          k = "" ∨ appEntryVersion e = "") →
        (es.mapM (fun entry =>
          match entry.apptrust_application with
          | none => (Except.error "Application entry missing required fields" :
              Except String (ManifestApp J))
          | some app_key =>
            if app_key = "" ∨ appEntryVersion entry = "" then
              Except.error "Application entry missing required fields"
            else
              Except.ok ⟨app_key, appEntryVersion entry,
                (gvc app_key (appEntryVersion entry)).1,
                (gvc app_key (appEntryVersion entry)).2⟩) : Except String _) =
          Except.error "Application entry missing required fields" := by
      intro es
      induction es with
      | nil =>
        rintro ⟨e, he, -⟩
        exact absurd he (List.not_mem_nil e)
      | cons e es ih =>
        rintro ⟨x, hx, hxbad⟩
        rw [List.mapM_cons]
        rcases List.mem_cons.mp hx with rfl | hx'
        · rw [hfe x hxbad]
          rfl
        · by_cases hebad : ∀ k, e.apptrust_application = some k →
              k = "" ∨ appEntryVersion e = ""
          · rw [hfe e hebad]
            rfl
          · push_neg at hebad
            obtain ⟨k, hk, hkbad⟩ := hebad
            have hok : (match e.apptrust_application with
                | none => (Except.error "Application entry missing required fields" :
                    Except String (ManifestApp J))
                | some app_key =>
                  if app_key = "" ∨ appEntryVersion e = "" then
                    Except.error "Application entry missing required fields"
                  else
                    Except.ok ⟨app_key, appEntryVersion e,
                      (gvc app_key (appEntryVersion e)).1,
                      (gvc app_key (appEntryVersion e)).2⟩) =
                Except.ok ⟨k, appEntryVersion e, (gvc k (appEntryVersion e)).1,
                  (gvc k (appEntryVersion e)).2⟩ := by
              simp only [hk]
              rw [if_neg (not_or.mpr hkbad)]
            rw [hok, ih ⟨x, hx', hxbad⟩]
            rfl
    rw [hmapMerr applications hbad]
    rfl
  · intro hstage hwf
    unfold build_manifest
    rw [if_neg (fun hc => hc hstage)]
    have hmapM : ∀ es : List AppEntry,
        (∀ e ∈ es, ∃ k, e.apptrust_application = some k ∧ k ≠ "" ∧
          appEntryVersion e ≠ "") →
        (es.mapM (fun entry =>
          match entry.apptrust_application with
          | none => (Except.error "Application entry missing required fields" :
              Except String (ManifestApp J))
          | some app_key =>
            if app_key = "" ∨ appEntryVersion entry = "" then
              Except.error "Application entry missing required fields"
            else
              Except.ok ⟨app_key, appEntryVersion entry,
                (gvc app_key (appEntryVersion entry)).1,
                (gvc app_key (appEntryVersion entry)).2⟩) : Except String _) =
          Except.ok (es.map (fun e =>
            ({ application_key := e.apptrust_application.getD "",
               version := appEntryVersion e,
               sources := (gvc (e.apptrust_application.getD "")
                 (appEntryVersion e)).1,
               releasables := (gvc (e.apptrust_application.getD "")
                 (appEntryVersion e)).2 } : ManifestApp J))) := by
      intro es
      induction es with
      | nil => intro _; rfl
      | cons e es ih =>
        intro hwf'
        obtain ⟨k, hk, hk1, hk2⟩ := hwf' e (List.mem_cons_self e es)
        rw [List.mapM_cons]
        simp only [hk, Option.getD_some, if_neg (not_or.mpr ⟨hk1, hk2⟩)]
        rw [ih (fun x hx => hwf' x (List.mem_cons_of_mem e hx))]
        simp only [List.map_cons, hk, Option.getD_some]
        rfl
    rw [hmapM applications hwf]
    rfl

/-- C9 witness: a concrete well-formed entry on stage PROD produces the full
manifest document. -/
theorem C9_build_manifest_witness :
    build_manifest [⟨some "web", some "1.2.3", none⟩]
      (fun _ _ => (("s" : String), ("r" : String))) "PROD" ⟨2026, 10, 12, 3, 4, 5, 0⟩ =
      .ok { version := "2026.10.12.030405",
            created_at := "2026-10-12T03:04:05Z",
            source_stage := "PROD",
            applications := [⟨"web", "1.2.3", "s", "r"⟩],
            evidence_minimums := ⟨true⟩,
            notes := "Auto-generated by platform-aggregator (applications & versions)" } :=
  (C9_build_manifest [⟨some "web", some "1.2.3", none⟩]
    (fun _ _ => (("s" : String), ("r" : String))) "PROD" ⟨2026, 10, 12, 3, 4, 5, 0⟩).2.2
    rfl
    (fun e he => by
      rw [List.mem_singleton] at he
      subst he
      exact ⟨"web", rfl, by decide, by decide⟩)

/-! ## Claim C8: the accepted version-string grammar -/

/-- Spec-side: a decimal number without leading zeros (except `0` itself). -/
def specNum (l : List Char) : Bool :=
  !l.isEmpty && l.all isDigitChar && (l = ['0'] || l.head? ≠ some '0')

/-- Spec-side: one prerelease identifier — such a number, or a token starting
with a letter or hyphen followed by alphanumerics and hyphens. -/
def specPreIdent (l : List Char) : Bool :=
  specNum l ||
    (match l with
     | c :: rest => (isAlphaChar c || c = '-') && rest.all isIdentChar
     | [] => false)

/-- Spec-side: one build identifier — a nonempty alphanumeric-or-hyphen token. -/
def specBuildIdent (l : List Char) : Bool := !l.isEmpty && l.all isIdentChar

/-- Dot-join of a token list, the inverse of splitting at dots. -/
def joinDot : List (List Char) → List Char
  | [] => []
  | [t] => t
  | t :: ts => t ++ '.' :: joinDot ts

/-- Modelled from the spec: the corrected domain of `SEMVER_RE` — optional
surrounding whitespace, optional `v`, three dot-separated numbers without
leading zeros, an optional `-`-introduced dot-separated prerelease identifier
list, an optional `+`-introduced dot-separated build identifier list. -/
def SemShape (s : String) : Prop :=
  ∃ (w1 v mj mn pt : List Char) (pre bld : List (List Char)) (w2 : List Char),
    w1.all isWSChar = true ∧
    (v = [] ∨ v = ['v']) ∧
    specNum mj = true ∧ specNum mn = true ∧ specNum pt = true ∧
    pre.all specPreIdent = true ∧
    bld.all specBuildIdent = true ∧
    w2.all isWSChar = true ∧
    s.data = w1 ++ (v ++ (mj ++ '.' :: (mn ++ '.' :: (pt ++
      ((if pre.isEmpty then [] else '-' :: joinDot pre) ++
        ((if bld.isEmpty then [] else '+' :: joinDot bld) ++ w2))))))

/-- The claim's stated constraint on a prerelease identifier: only a nonempty
alphanumeric-or-hyphen token. -/
def claimPreIdent (l : List Char) : Bool := !l.isEmpty && l.all isIdentChar

/-- The domain stated by the claim: `vMAJOR.MINOR.PATCH[-prerelease][+build]`
with no whitespace tolerance and with prerelease identifiers only required to
be alphanumeric-or-hyphen tokens. -/
def ClaimShape (s : String) : Prop :=
  ∃ (v mj mn pt : List Char) (pre bld : List (List Char)),
    (v = [] ∨ v = ['v']) ∧
    specNum mj = true ∧ specNum mn = true ∧ specNum pt = true ∧
    pre.all claimPreIdent = true ∧
    bld.all specBuildIdent = true ∧
    s.data = v ++ (mj ++ '.' :: (mn ++ '.' :: (pt ++
      ((if pre.isEmpty then [] else '-' :: joinDot pre) ++
        (if bld.isEmpty then [] else '+' :: joinDot bld)))))

theorem ws_cases {c : Char} (h : isWSChar c = true) :
    c = ' ' ∨ c = '\t' ∨ c = '\n' ∨ c = '\r' ∨ c = '\x0b' ∨ c = '\x0c' := by
  unfold isWSChar at h
  simp only [Bool.or_eq_true, decide_eq_true_eq] at h
  tauto

theorem not_ws_of_digit {c : Char} (h : isDigitChar c = true) : isWSChar c = false := by
  cases hw : isWSChar c with
  | false => rfl
  | true => rcases ws_cases hw with rfl|rfl|rfl|rfl|rfl|rfl <;> exact absurd h (by decide)

theorem digit_ne {c : Char} (h : isDigitChar c = true) :
    c ≠ 'v' ∧ c ≠ '.' ∧ c ≠ '-' ∧ c ≠ '+' := by
  refine ⟨?_, ?_, ?_, ?_⟩ <;> (intro hc; rw [hc] at h; exact absurd h (by decide))

theorem identChar_ne_dot {c : Char} (h : isIdentChar c = true) : c ≠ '.' := by
  intro hc
  rw [hc] at h
  exact absurd h (by decide)

theorem ws_ne_marks {c : Char} (h : isWSChar c = true) : c ≠ '-' ∧ c ≠ '+' := by
  rcases ws_cases h with rfl|rfl|rfl|rfl|rfl|rfl <;> exact ⟨by decide, by decide⟩

theorem not_prerun_of_ws {c : Char} (h : isWSChar c = true) : isPreRunChar c = false := by
  rcases ws_cases h with rfl|rfl|rfl|rfl|rfl|rfl <;> decide

theorem numOK_eq_spec (l : List Char) : numOK l = specNum l := by
  unfold numOK specNum
  cases l with
  | nil => rfl
  | cons c r =>
    by_cases hc : c = '0'
    · subst hc
      cases r with
      | nil => rfl
      | cons d r' =>
        have h1 : (('0' :: d :: r').length = 1) = False := by simp
        have h2 : (('0' :: d :: r' : List Char) = ['0']) = False := by simp
        simp [h1, h2]
    · simp [hc]

theorem preIdentOK_eq_spec (l : List Char) : preIdentOK l = specPreIdent l := by
  unfold preIdentOK specPreIdent
  rw [numOK_eq_spec]

theorem buildIdentOK_eq_spec (l : List Char) : buildIdentOK l = specBuildIdent l := rfl

theorem specNum_chars {l : List Char} (h : specNum l = true) :
    l ≠ [] ∧ ∀ c ∈ l, isDigitChar c = true := by
  unfold specNum at h
  simp only [Bool.and_eq_true] at h
  exact ⟨by simpa using h.1.1, List.all_eq_true.mp h.1.2⟩

theorem preIdent_chars {t : List Char} (h : specPreIdent t = true) :
    t ≠ [] ∧ ∀ c ∈ t, isIdentChar c = true := by
  unfold specPreIdent at h
  rw [Bool.or_eq_true] at h
  rcases h with h | h
  · obtain ⟨h1, h2⟩ := specNum_chars h
    refine ⟨h1, fun c hc => ?_⟩
    unfold isIdentChar
    rw [h2 c hc]
    rfl
  · cases t with
    | nil => simp at h
    | cons d rest =>
      simp only [Bool.and_eq_true] at h
      refine ⟨by simp, fun c hc => ?_⟩
      rcases List.mem_cons.mp hc with rfl | hc'
      · have h1 := h.1
        simp only [Bool.or_eq_true, decide_eq_true_eq] at h1
        unfold isIdentChar
        rcases h1 with h2 | rfl
        · simp [h2]
        · decide
      · have := List.all_eq_true.mp h.2 c hc'
        exact this

theorem buildIdent_chars {t : List Char} (h : specBuildIdent t = true) :
    t ≠ [] ∧ ∀ c ∈ t, isIdentChar c = true := by
  unfold specBuildIdent at h
  simp only [Bool.and_eq_true] at h
  exact ⟨by simpa using h.1, List.all_eq_true.mp h.2⟩

theorem takeDrop_append {α : Type} {p : α → Bool} :
    ∀ {l r : List α}, (∀ c ∈ l, p c = true) →
      (∀ c, r.head? = some c → p c = false) →
      (l ++ r).takeWhile p = l ∧ (l ++ r).dropWhile p = r
  | [], r, _, hr => by
    cases r with
    | nil => exact ⟨rfl, rfl⟩
    | cons c r' =>
      have hc := hr c rfl
      exact ⟨by simp [List.takeWhile_cons, hc], by simp [List.dropWhile_cons, hc]⟩
  | c :: l', r, hl, hr => by
    have hc := hl c (List.mem_cons_self c l')
    obtain ⟨h1, h2⟩ :=
      takeDrop_append (fun d hd => hl d (List.mem_cons_of_mem c hd)) hr
    exact ⟨by simp [List.takeWhile_cons, hc, h1], by simp [List.dropWhile_cons, hc, h2]⟩

theorem head?_dropWhile {α : Type} (p : α → Bool) :
    ∀ (l : List α) {c : α}, (l.dropWhile p).head? = some c → p c = false
  | [], c, h => by simp [List.dropWhile] at h
  | a :: l', c, h => by
    rw [List.dropWhile_cons] at h
    by_cases ha : p a = true
    · rw [if_pos ha] at h
      exact head?_dropWhile p l' h
    · rw [if_neg ha] at h
      have hac : a = c := by simpa using h
      subst hac
      cases hpa : p a with
      | false => rfl
      | true => exact absurd hpa ha

theorem splitDot_ne_nil : ∀ l : List Char, splitDot l ≠ []
  | [] => by simp [splitDot]
  | c :: r => by
    show (if c = '.' then [] :: splitDot r
          else (c :: (splitDot r).headD []) :: (splitDot r).tail) ≠ []
    split_ifs <;> simp

theorem splitDot_append_nodot : ∀ (t l : List Char), (∀ c ∈ t, c ≠ '.') →
    splitDot (t ++ l) = (t ++ (splitDot l).headD []) :: (splitDot l).tail
  | [], l, _ => by
    cases hsl : splitDot l with
    | nil => exact absurd hsl (splitDot_ne_nil l)
    | cons a as => simp [hsl]
  | c :: t', l, hnd => by
    have hc : ¬ c = '.' := hnd c (List.mem_cons_self c t')
    show (if c = '.' then [] :: splitDot (t' ++ l)
          else (c :: (splitDot (t' ++ l)).headD []) :: (splitDot (t' ++ l)).tail) = _
    rw [if_neg hc,
      splitDot_append_nodot t' l (fun d hd => hnd d (List.mem_cons_of_mem c hd))]
    simp

theorem splitDot_single (t : List Char) (hnd : ∀ c ∈ t, c ≠ '.') :
    splitDot t = [t] := by
  have h := splitDot_append_nodot t [] hnd
  simpa [splitDot] using h

theorem splitDot_cons_dot (t rest : List Char) (hnd : ∀ c ∈ t, c ≠ '.') :
    splitDot (t ++ '.' :: rest) = t :: splitDot rest := by
  rw [splitDot_append_nodot t ('.' :: rest) hnd]
  have h : splitDot ('.' :: rest) = [] :: splitDot rest := by
    show (if ('.' : Char) = '.' then [] :: splitDot rest
          else ('.' :: (splitDot rest).headD []) :: (splitDot rest).tail) = _
    rw [if_pos rfl]
  rw [h]
  simp

theorem splitDot_joinDot : ∀ (ts : List (List Char)), ts ≠ [] →
    (∀ t ∈ ts, ∀ c ∈ t, c ≠ '.') → splitDot (joinDot ts) = ts
  | [], h, _ => absurd rfl h
  | [t], _, hnd => by
    rw [show joinDot [t] = t from rfl]
    exact splitDot_single t (hnd t (List.mem_singleton.mpr rfl))
  | t :: u :: ts, _, hnd => by
    rw [show joinDot (t :: u :: ts) = t ++ '.' :: joinDot (u :: ts) from rfl]
    rw [splitDot_cons_dot t _ (hnd t (List.mem_cons_self t _))]
    rw [splitDot_joinDot (u :: ts) (by simp)
      (fun x hx => hnd x (List.mem_cons_of_mem t hx))]

theorem joinDot_splitDot : ∀ l : List Char, joinDot (splitDot l) = l
  | [] => rfl
  | c :: r => by
    have ih := joinDot_splitDot r
    show joinDot (if c = '.' then [] :: splitDot r
        else (c :: (splitDot r).headD []) :: (splitDot r).tail) = c :: r
    cases hsr : splitDot r with
    | nil => exact absurd hsr (splitDot_ne_nil r)
    | cons a as =>
      have ih' : joinDot (a :: as) = r := by rw [← hsr]; exact ih
      by_cases hc : c = '.'
      · subst hc
        rw [if_pos rfl]
        show ([] : List Char) ++ '.' :: joinDot (a :: as) = '.' :: r
        rw [ih']
        rfl
      · rw [if_neg hc]
        show joinDot ((c :: a) :: as) = c :: r
        cases as with
        | nil =>
          show c :: a = c :: r
          exact congrArg (List.cons c) ih'
        | cons b as' =>
          show (c :: a) ++ '.' :: joinDot (b :: as') = c :: r
          rw [← ih']
          show (c :: a) ++ '.' :: joinDot (b :: as') =
            c :: (a ++ '.' :: joinDot (b :: as'))
          simp

theorem mem_joinDot : ∀ {ts : List (List Char)} {c : Char}, c ∈ joinDot ts →
    c = '.' ∨ ∃ t ∈ ts, c ∈ t
  | [], c, h => by simp [joinDot] at h
  | [t], c, h => Or.inr ⟨t, by simp, by simpa [joinDot] using h⟩
  | t :: u :: ts, c, h => by
    rw [show joinDot (t :: u :: ts) = t ++ '.' :: joinDot (u :: ts) from rfl] at h
    rcases List.mem_append.mp h with h1 | h1
    · exact Or.inr ⟨t, by simp, h1⟩
    · rcases List.mem_cons.mp h1 with rfl | h2
      · exact Or.inl rfl
      · rcases mem_joinDot h2 with h3 | ⟨u', hu', hcu⟩
        · exact Or.inl h3
        · exact Or.inr ⟨u', List.mem_cons_of_mem t hu', hcu⟩

theorem stripV_v (r : List Char) : stripV ('v' :: r) = r := rfl

theorem stripV_eq_self : ∀ {l : List Char}, (∀ r, l ≠ 'v' :: r) → stripV l = l := by
  intro l h
  unfold stripV
  split
  · rename_i r
    exact absurd rfl (h r)
  · rfl

theorem stripV_cases (l : List Char) :
    stripV l = l ∨ ∃ r, l = 'v' :: r ∧ stripV l = r := by
  unfold stripV
  split
  · rename_i r
    exact Or.inr ⟨r, rfl, rfl⟩
  · exact Or.inl rfl

theorem parseNum_sound {l : List Char} {n : Nat} {r : List Char}
    (h : parseNum l = some (n, r)) :
    ∃ d, l = d ++ r ∧ specNum d = true ∧
      (∀ c, r.head? = some c → isDigitChar c = false) := by
  simp only [parseNum] at h
  split at h
  · rename_i hok
    simp only [Option.some.injEq, Prod.mk.injEq] at h
    obtain ⟨-, h2⟩ := h
    subst h2
    exact ⟨l.takeWhile isDigitChar, (List.takeWhile_append_dropWhile isDigitChar l).symm,
      by rw [← numOK_eq_spec]; exact hok,
      fun c hc => head?_dropWhile isDigitChar l hc⟩
  · exact absurd h (by simp)

theorem parseNum_complete {d r : List Char} (hd : specNum d = true)
    (hr : ∀ c, r.head? = some c → isDigitChar c = false) :
    parseNum (d ++ r) = some (digitsVal d, r) := by
  obtain ⟨h1, h2⟩ := takeDrop_append (specNum_chars hd).2 hr
  show (if numOK ((d ++ r).takeWhile isDigitChar) then
      some (digitsVal ((d ++ r).takeWhile isDigitChar),
        (d ++ r).dropWhile isDigitChar)
    else none) = some (digitsVal d, r)
  rw [h1, h2, if_pos (by rw [numOK_eq_spec]; exact hd)]

theorem dropDot_sound : ∀ {l r : List Char}, dropDot l = some r → l = '.' :: r := by
  intro l r h
  unfold dropDot at h
  split at h
  · rename_i r'
    simp only [Option.some.injEq] at h
    rw [h]
  · exact absurd h (by simp)

theorem parseDotGroup_sound {l : List Char} {mark : Char} {tokOK : List Char → Bool}
    {toks : List (List Char)} {r : List Char}
    (h : parseDotGroup l mark tokOK = some (toks, r)) :
    (toks = [] ∧ r = l) ∨
    (toks ≠ [] ∧ toks.all tokOK = true ∧ l = mark :: (joinDot toks ++ r) ∧
      (∀ c, r.head? = some c → isPreRunChar c = false)) := by
  simp only [parseDotGroup] at h
  split at h
  · rename_i c r'
    split at h
    · rename_i hcm
      split at h
      · rename_i hall
        simp only [Option.some.injEq, Prod.mk.injEq] at h
        obtain ⟨h1, h2⟩ := h
        subst h1
        subst h2
        refine Or.inr ⟨splitDot_ne_nil _, hall, ?_,
          fun c hc => head?_dropWhile isPreRunChar r' hc⟩
        rw [hcm, joinDot_splitDot, List.takeWhile_append_dropWhile]
      · exact absurd h (by simp)
    · simp only [Option.some.injEq, Prod.mk.injEq] at h
      obtain ⟨h1, h2⟩ := h
      exact Or.inl ⟨h1.symm, h2.symm⟩
  · simp only [Option.some.injEq, Prod.mk.injEq] at h
    obtain ⟨h1, h2⟩ := h
    exact Or.inl ⟨h1.symm, h2.symm⟩

theorem parseDotGroup_absent {l : List Char} {mark : Char} (tokOK : List Char → Bool)
    (hl : ∀ c, l.head? = some c → c ≠ mark) :
    parseDotGroup l mark tokOK = some ([], l) := by
  cases l with
  | nil => rfl
  | cons c r =>
    show (if c = mark then
        (if (splitDot (r.takeWhile isPreRunChar)).all tokOK then
           some (splitDot (r.takeWhile isPreRunChar), r.dropWhile isPreRunChar)
         else none)
      else some ([], c :: r)) = some ([], c :: r)
    rw [if_neg (hl c rfl)]

theorem parseDotGroup_present {toks : List (List Char)} {rest : List Char}
    (mark : Char) {tokOK : List Char → Bool}
    (hne : toks ≠ []) (hall : toks.all tokOK = true)
    (hch : ∀ t ∈ toks, ∀ c ∈ t, isIdentChar c = true)
    (hrest : ∀ c, rest.head? = some c → isPreRunChar c = false) :
    parseDotGroup (mark :: (joinDot toks ++ rest)) mark tokOK =
      some (toks, rest) := by
  have hjall : ∀ c ∈ joinDot toks, isPreRunChar c = true := by
    intro c hc
    rcases mem_joinDot hc with rfl | ⟨t, ht, hct⟩
    · decide
    · simp [isPreRunChar, hch t ht c hct]
  obtain ⟨h1, h2⟩ := takeDrop_append hjall hrest
  show (if mark = mark then
      (if (splitDot ((joinDot toks ++ rest).takeWhile isPreRunChar)).all tokOK then
         some (splitDot ((joinDot toks ++ rest).takeWhile isPreRunChar),
           (joinDot toks ++ rest).dropWhile isPreRunChar)
       else none)
    else some ([], mark :: (joinDot toks ++ rest))) = some (toks, rest)
  rw [if_pos rfl, h1, h2,
    splitDot_joinDot toks hne (fun t ht c hc => identChar_ne_dot (hch t ht c hc)),
    if_pos hall]

theorem matchSemver_sound {l : List Char} {t : Nat × Nat × Nat × List (List Char)}
    (h : matchSemver l = some t) :
    ∃ (w1 v mj mn pt : List Char) (pre bld : List (List Char)) (w2 : List Char),
      w1.all isWSChar = true ∧ (v = [] ∨ v = ['v']) ∧
      specNum mj = true ∧ specNum mn = true ∧ specNum pt = true ∧
      pre.all specPreIdent = true ∧ bld.all specBuildIdent = true ∧
      w2.all isWSChar = true ∧
      l = w1 ++ (v ++ (mj ++ '.' :: (mn ++ '.' :: (pt ++ ((if pre.isEmpty then [] else '-' :: joinDot pre) ++ ((if bld.isEmpty then [] else '+' :: joinDot bld) ++ w2)))))) := by
  simp only [matchSemver] at h
  split at h
  · exact absurd h (by simp)
  · rename_i maj r1 hpn1
    split at h
    · exact absurd h (by simp)
    · rename_i r2 hdd1
      split at h
      · exact absurd h (by simp)
      · rename_i minv r3 hpn2
        split at h
        · exact absurd h (by simp)
        · rename_i r4 hdd2
          split at h
          · exact absurd h (by simp)
          · rename_i pat r5 hpn3
            split at h
            · exact absurd h (by simp)
            · rename_i pre r6 hpg1
              split at h
              · exact absurd h (by simp)
              · rename_i bld r7 hpg2
                split at h
                · rename_i hw2
                  clear h
                  obtain ⟨mj, hmj1, hmj2, -⟩ := parseNum_sound hpn1
                  obtain ⟨mn, hmn1, hmn2, -⟩ := parseNum_sound hpn2
                  obtain ⟨pt, hpt1, hpt2, -⟩ := parseNum_sound hpn3
                  have hr1 : r1 = '.' :: r2 := dropDot_sound hdd1
                  have hr3 : r3 = '.' :: r4 := dropDot_sound hdd2
                  have hpg1' := parseDotGroup_sound hpg1
                  have hpg2' := parseDotGroup_sound hpg2
                  have hpreall : pre.all specPreIdent = true := by
                    have hok : pre.all preIdentOK = true := by
                      rcases hpg1' with ⟨rfl, -⟩ | ⟨-, hall, -, -⟩
                      · rfl
                      · exact hall
                    exact List.all_eq_true.mpr (fun x hx => by
                      rw [← preIdentOK_eq_spec]
                      exact List.all_eq_true.mp hok x hx)
                  have hbldall : bld.all specBuildIdent = true := by
                    rcases hpg2' with ⟨rfl, -⟩ | ⟨-, hall, -, -⟩
                    · rfl
                    · exact hall
                  have hr5 : r5 = (if pre.isEmpty then [] else '-' :: joinDot pre) ++ r6 := by
                    rcases hpg1' with ⟨rfl, hr6⟩ | ⟨hne, -, hr5e, -⟩
                    · rw [hr6]
                      rfl
                    · rw [hr5e, if_neg (by simpa using hne)]
                      rfl
                  have hr6 : r6 = (if bld.isEmpty then [] else '+' :: joinDot bld) ++ r7 := by
                    rcases hpg2' with ⟨rfl, hr7⟩ | ⟨hne, -, hr6e, -⟩
                    · rw [hr7]
                      rfl
                    · rw [hr6e, if_neg (by simpa using hne)]
                      rfl
                  have hw1 : (l.takeWhile isWSChar).all isWSChar = true :=
                    List.all_eq_true.mpr (fun c hc => List.mem_takeWhile_imp hc)
                  obtain ⟨V, hVor, hdropeq⟩ : ∃ V, (V = [] ∨ V = ['v']) ∧
                      l.dropWhile isWSChar = V ++ (mj ++ r1) := by
                    rcases stripV_cases (l.dropWhile isWSChar) with hsv | ⟨rr, hrr, hsv⟩
                    · exact ⟨[], Or.inl rfl,
                        by rw [List.nil_append]; exact hsv.symm.trans hmj1⟩
                    · refine ⟨['v'], Or.inr rfl, ?_⟩
                      rw [hrr, hsv.symm.trans hmj1]
                      rfl
                  refine ⟨l.takeWhile isWSChar, V, mj, mn, pt, pre, bld, r7,
                    hw1, hVor, hmj2, hmn2, hpt2, hpreall, hbldall, hw2, ?_⟩
                  conv_lhs => rw [← List.takeWhile_append_dropWhile isWSChar l]
                  rw [hdropeq, hr1, hmn1, hr3, hpt1, hr5, hr6]
                · exact absurd h (by simp)

theorem matchSemver_complete
    (w1 v mj mn pt : List Char) (pre bld : List (List Char)) (w2 : List Char)
    (hw1 : w1.all isWSChar = true) (hv : v = [] ∨ v = ['v'])
    (hmj : specNum mj = true) (hmn : specNum mn = true) (hpt : specNum pt = true)
    (hpre : pre.all specPreIdent = true) (hbld : bld.all specBuildIdent = true)
    (hw2 : w2.all isWSChar = true) :
    (matchSemver (w1 ++ (v ++ (mj ++ '.' :: (mn ++ '.' :: (pt ++ ((if pre.isEmpty then [] else '-' :: joinDot pre) ++ ((if bld.isEmpty then [] else '+' :: joinDot bld) ++ w2)))))))).isSome = true := by
  obtain ⟨hmjne, hmjd⟩ := specNum_chars hmj
  obtain ⟨hmnne, hmnd⟩ := specNum_chars hmn
  obtain ⟨hptne, hptd⟩ := specNum_chars hpt
  have digit_prerun : ∀ c : Char, isDigitChar c = true → isPreRunChar c = true := by
    intro c h
    simp [isPreRunChar, isIdentChar, h]
  have hBWhead : ∀ c, ((if bld.isEmpty then [] else '+' :: joinDot bld) ++ w2).head? = some c →
      isPreRunChar c = false ∧ ¬ c = '-' := by
    intro c hc
    by_cases hbe : bld.isEmpty
    · rw [if_pos hbe, List.nil_append] at hc
      cases w2 with
      | nil => simp at hc
      | cons d w2' =>
        have hdc : d = c := by simpa using hc
        subst hdc
        have hdws : isWSChar d = true := List.all_eq_true.mp hw2 d (List.mem_cons_self d w2')
        exact ⟨not_prerun_of_ws hdws, (ws_ne_marks hdws).1⟩
    · rw [if_neg hbe] at hc
      have hcp : '+' = c := by simpa using hc
      subst hcp
      exact ⟨by decide, by decide⟩
  have hPBWhead : ∀ c, ((if pre.isEmpty then [] else '-' :: joinDot pre) ++ ((if bld.isEmpty then [] else '+' :: joinDot bld) ++ w2)).head? = some c → isDigitChar c = false := by
    intro c hc
    by_cases hpe : pre.isEmpty
    · rw [if_pos hpe, List.nil_append] at hc
      have h1 := (hBWhead c hc).1
      cases hd : isDigitChar c with
      | false => rfl
      | true => rw [digit_prerun c hd] at h1; exact absurd h1 (by simp)
    · rw [if_neg hpe] at hc
      have hcm : '-' = c := by simpa using hc
      subst hcm
      rfl
  have hpn3 : parseNum (pt ++ ((if pre.isEmpty then [] else '-' :: joinDot pre) ++ ((if bld.isEmpty then [] else '+' :: joinDot bld) ++ w2))) = some (digitsVal pt, ((if pre.isEmpty then [] else '-' :: joinDot pre) ++ ((if bld.isEmpty then [] else '+' :: joinDot bld) ++ w2))) :=
    parseNum_complete hpt hPBWhead
  have hpn2 : parseNum (mn ++ '.' :: (pt ++ ((if pre.isEmpty then [] else '-' :: joinDot pre) ++ ((if bld.isEmpty then [] else '+' :: joinDot bld) ++ w2)))) = some (digitsVal mn, '.' :: (pt ++ ((if pre.isEmpty then [] else '-' :: joinDot pre) ++ ((if bld.isEmpty then [] else '+' :: joinDot bld) ++ w2)))) :=
    parseNum_complete hmn (fun c hc => by
      have hcd : '.' = c := by simpa using hc
      subst hcd
      rfl)
  have hpn1 : parseNum (mj ++ '.' :: (mn ++ '.' :: (pt ++ ((if pre.isEmpty then [] else '-' :: joinDot pre) ++ ((if bld.isEmpty then [] else '+' :: joinDot bld) ++ w2))))) = some (digitsVal mj, '.' :: (mn ++ '.' :: (pt ++ ((if pre.isEmpty then [] else '-' :: joinDot pre) ++ ((if bld.isEmpty then [] else '+' :: joinDot bld) ++ w2))))) :=
    parseNum_complete hmj (fun c hc => by
      have hcd : '.' = c := by simpa using hc
      subst hcd
      rfl)
  obtain ⟨tk1, hpg1⟩ : ∃ tk1,
      parseDotGroup ((if pre.isEmpty then [] else '-' :: joinDot pre) ++ ((if bld.isEmpty then [] else '+' :: joinDot bld) ++ w2)) '-' preIdentOK = some (tk1, (if bld.isEmpty then [] else '+' :: joinDot bld) ++ w2) := by
    by_cases hpe : pre.isEmpty
    · refine ⟨[], ?_⟩
      rw [if_pos hpe, List.nil_append]
      exact parseDotGroup_absent preIdentOK (fun c hc => (hBWhead c hc).2)
    · refine ⟨pre, ?_⟩
      rw [if_neg hpe, List.cons_append]
      exact parseDotGroup_present '-' (by simpa using hpe)
        (List.all_eq_true.mpr (fun x hx => by
          rw [preIdentOK_eq_spec]
          exact List.all_eq_true.mp hpre x hx))
        (fun x hx => (preIdent_chars (List.all_eq_true.mp hpre x hx)).2)
        (fun c hc => (hBWhead c hc).1)
  obtain ⟨tk2, hpg2⟩ : ∃ tk2,
      parseDotGroup ((if bld.isEmpty then [] else '+' :: joinDot bld) ++ w2) '+' buildIdentOK = some (tk2, w2) := by
    have hW2head : ∀ c, w2.head? = some c → isPreRunChar c = false ∧ ¬ c = '+' := by
      intro c hc
      cases w2 with
      | nil => simp at hc
      | cons d w2' =>
        have hdc : d = c := by simpa using hc
        subst hdc
        have hdws : isWSChar d = true := List.all_eq_true.mp hw2 d (List.mem_cons_self d w2')
        exact ⟨not_prerun_of_ws hdws, (ws_ne_marks hdws).2⟩
    by_cases hbe : bld.isEmpty
    · refine ⟨[], ?_⟩
      rw [if_pos hbe, List.nil_append]
      exact parseDotGroup_absent buildIdentOK (fun c hc => (hW2head c hc).2)
    · refine ⟨bld, ?_⟩
      rw [if_neg hbe, List.cons_append]
      exact parseDotGroup_present '+' (by simpa using hbe)
        hbld
        (fun x hx => (buildIdent_chars (List.all_eq_true.mp hbld x hx)).2)
        (fun c hc => (hW2head c hc).1)
  have hdropstrip : stripV ((w1 ++ (v ++ (mj ++ '.' :: (mn ++ '.' :: (pt ++ ((if pre.isEmpty then [] else '-' :: joinDot pre) ++ ((if bld.isEmpty then [] else '+' :: joinDot bld) ++ w2))))))).dropWhile isWSChar) = (mj ++ '.' :: (mn ++ '.' :: (pt ++ ((if pre.isEmpty then [] else '-' :: joinDot pre) ++ ((if bld.isEmpty then [] else '+' :: joinDot bld) ++ w2))))) := by
    cases mj with
    | nil => exact absurd rfl hmjne
    | cons c0 mj' =>
    have hc0d : isDigitChar c0 = true := hmjd c0 (List.mem_cons_self c0 mj')
    have hdrop : (w1 ++ (v ++ ((c0 :: mj') ++ '.' :: (mn ++ '.' :: (pt ++ ((if pre.isEmpty then [] else '-' :: joinDot pre) ++ ((if bld.isEmpty then [] else '+' :: joinDot bld) ++ w2))))))).dropWhile isWSChar =
        v ++ ((c0 :: mj') ++ '.' :: (mn ++ '.' :: (pt ++ ((if pre.isEmpty then [] else '-' :: joinDot pre) ++ ((if bld.isEmpty then [] else '+' :: joinDot bld) ++ w2))))) := by
      refine (takeDrop_append (List.all_eq_true.mp hw1) ?_).2
      intro c hc
      rcases hv with rfl | rfl
      · rw [List.nil_append] at hc
        have hcc : c0 = c := by simpa using hc
        subst hcc
        exact not_ws_of_digit hc0d
      · have hcc : 'v' = c := by simpa using hc
        subst hcc
        decide
    rw [hdrop]
    rcases hv with rfl | rfl
    · rw [List.nil_append]
      apply stripV_eq_self
      intro r hr
      rw [List.cons_append] at hr
      injection hr with h1 h2
      rw [h1] at hc0d
      exact absurd hc0d (by decide)
    · rw [show (['v'] ++ ((c0 :: mj') ++ '.' :: (mn ++ '.' :: (pt ++ ((if pre.isEmpty then [] else '-' :: joinDot pre) ++ ((if bld.isEmpty then [] else '+' :: joinDot bld) ++ w2))))) : List Char) =
        'v' :: ((c0 :: mj') ++ '.' :: (mn ++ '.' :: (pt ++ ((if pre.isEmpty then [] else '-' :: joinDot pre) ++ ((if bld.isEmpty then [] else '+' :: joinDot bld) ++ w2))))) from rfl]
      exact stripV_v _
  simp only [matchSemver, hdropstrip, hpn1, dropDot, hpn2, hpn3, hpg1, hpg2, hw2,
    if_true, Option.isSome_some]

/-- C8: the corrected domain of `SemVer.parse`: a string parses exactly when
it matches `\s* v? MAJOR.MINOR.PATCH (-prerelease)? (+build)? \s*`, with the
three numbers free of leading zeros (except `0` itself), each prerelease
identifier either such a number or a token beginning with a letter or hyphen
followed by alphanumerics and hyphens, and each build identifier a nonempty
alphanumeric-or-hyphen token; on every other string it returns none — it is a
total function into an Option and can never raise. -/
theorem C8_parse_domain (s : String) :
    (SemVer.parse s).isSome = true ↔ SemShape s := by
  have hmap : ∀ (o : Option (Nat × Nat × Nat × List (List Char)))
      (f : Nat × Nat × Nat × List (List Char) → SemVer),
      (o.map f).isSome = o.isSome := by
    intro o f
    cases o <;> rfl
  constructor
  · intro h
    unfold SemVer.parse at h
    rw [hmap] at h
    cases hm : matchSemver s.data with
    | none => rw [hm] at h; exact absurd h (by simp)
    | some t =>
      obtain ⟨w1, v, mj, mn, pt, pre, bld, w2, h1, h2, h3, h4, h5, h6, h7, h8, h9⟩ :=
        matchSemver_sound hm
      exact ⟨w1, v, mj, mn, pt, pre, bld, w2, h1, h2, h3, h4, h5, h6, h7, h8, h9⟩
  · rintro ⟨w1, v, mj, mn, pt, pre, bld, w2, h1, h2, h3, h4, h5, h6, h7, h8, h9⟩
    unfold SemVer.parse
    rw [hmap, h9]
    exact matchSemver_complete w1 v mj mn pt pre bld w2 h1 h2 h3 h4 h5 h6 h7 h8

/-- C8 counterexample: `1.0.0-01` matches the grammar stated by the claim —
`01` is a nonempty alphanumeric token — but `SemVer.parse` rejects it (the
regex admits numeric prerelease identifiers only without leading zeros);
conversely ` 1.0.0` is accepted by `SemVer.parse` although it lies outside
the claim's stated grammar (no whitespace tolerance is stated). -/
theorem C8_counterexample :
    SemVer.parse "1.0.0-01" = none ∧ ClaimShape "1.0.0-01" ∧
    (SemVer.parse " 1.0.0").isSome = true ∧ ¬ ClaimShape " 1.0.0" := by
  refine ⟨by decide, ?_, by decide, ?_⟩
  · exact ⟨[], ['1'], ['0'], ['0'], [['0', '1']], [], Or.inl rfl,
      by decide, by decide, by decide, by decide, by decide, by decide⟩
  · rintro ⟨v, mj, mn, pt, pre, bld, hv, hmj, -, -, -, -, heq⟩
    obtain ⟨hmjne, hmjd⟩ := specNum_chars hmj
    rcases hv with rfl | rfl
    · rw [List.nil_append] at heq
      cases mj with
      | nil => exact absurd rfl hmjne
      | cons c mj' =>
        rw [List.cons_append] at heq
        have h := congrArg List.head? heq
        rw [List.head?_cons] at h
        have h1 : some ' ' = some c := h
        injection h1 with h2
        have h3 := hmjd c (List.mem_cons_self c mj')
        rw [← h2] at h3
        exact absurd h3 (by decide)
    · rw [List.singleton_append] at heq
      have h := congrArg List.head? heq
      rw [List.head?_cons] at h
      have h1 : some ' ' = some 'v' := h
      injection h1 with h2
      exact absurd h2 (by decide)

end BookVerse
